import Mathlib

/-!
Verification development for the Elemental excerpt: the SafeScale utility
(`include/El/blas_like/level1/SafeScale.hpp`), the multi-shift Hessenberg
solver (`include/elemental/lapack-like/solve/MultiShiftHessSolve.hpp`) and
the direct-form IPF interior-point loop
(`src/optimization/solvers/LP/direct/IPM/IPF.cpp`).

Each C++ routine is shallowly embedded: pure arithmetic is carried out in
exact arithmetic (`ℚ` where the source only uses field operations, `ℝ`
where it takes square roots), stateful loops become explicit recursions,
and collaborator routines that are not part of the excerpt are modelled
from their documented contracts.
-/

namespace El

/-- Translation of `SafeScaleStep` from
`include/El/blas_like/level1/SafeScale.hpp`.  The C++ routine mutates
`numerator`, `denominator` and `alpha` by reference and returns a `bool`
that is `true` when the final ratio has been applied; here the step
returns `(done, numerator, denominator, alpha)`.  Exact arithmetic over
`ℚ`; `smallNum` and `bigNum` are parameters (in the source they are
`limits::SafeMin` and its reciprocal). -/
def SafeScaleStep (smallNum bigNum num den : ℚ) : Bool × ℚ × ℚ × ℚ :=
  let shrunkDenominator := den * smallNum
  if |shrunkDenominator| > |num| ∧ num ≠ 0 then
    (false, num, shrunkDenominator, smallNum)
  else
    let shrunkNumerator := num / bigNum
    if |shrunkNumerator| > |den| then
      (false, shrunkNumerator, den, bigNum)
    else
      (true, num, den, num / den)

/-- The `while( !done )` loop of `SafeScale`: the list of scale factors
`alpha` applied to the target matrix, in order.  The C++ loop has no
structural bound, so the recursion carries explicit fuel and returns
`none` when the fuel runs out before the step reports `done`. -/
def SafeScaleAlphas (smallNum bigNum : ℚ) : ℕ → ℚ → ℚ → Option (List ℚ)
  | 0, _, _ => none
  | fuel + 1, num, den =>
    let r := SafeScaleStep smallNum bigNum num den
    if r.1 = true then some [r.2.2.2]
    else
      (SafeScaleAlphas smallNum bigNum fuel r.2.1 r.2.2.1).map
        (fun l => r.2.2.2 :: l)

/-- The in-place scaling `A *= alpha` performed once per loop iteration,
on a matrix modelled as its list of entries. -/
def scaleEntries (alpha : ℚ) (A : List ℚ) : List ℚ := A.map (fun t => alpha * t)

/-- Translation of `SafeScale( numerator, denominator, Matrix& A )`: run
the step loop, applying each produced `alpha` to the entries. -/
def SafeScale (smallNum bigNum : ℚ) (fuel : ℕ) (num den : ℚ) (A : List ℚ) :
    Option (List ℚ) :=
  (SafeScaleAlphas smallNum bigNum fuel num den).map
    (fun l => l.foldl (fun B alpha => scaleEntries alpha B) A)

namespace lp

namespace direct

/-! ## The IPF interior-point loop

Shallow embedding of `lp::direct::IPF` from
`src/optimization/solvers/LP/direct/IPM/IPF.cpp`.  Vectors are functions
`ℕ → ℝ` with explicit lengths (`x`, `z`, `c` of length `n`; `y`, `b` of
length `m`); the matrix `A` is `ℕ → ℕ → ℝ` of size `m × n`.  The dense
BLAS collaborators (`Dot`, `Nrm2`, `Gemv`, `Axpy`, `DiagonalScale`,
`DiagonalSolve`, `NumNonPositive`) are not part of the excerpt and are
modelled from their contracts in the specification.  The KKT
construction/factorization/solve and the line search are collaborators
whose outcome the loop only branches on, so they enter the embedding as
oracle functions of the visible iteration state. -/

/-- Modelled from the spec: `Dot(a,b)`, the inner product of two length-k
vectors. -/
noncomputable def dotk (k : ℕ) (u v : ℕ → ℝ) : ℝ :=
  ∑ i ∈ Finset.range k, u i * v i

/-- Modelled from the spec: `Nrm2`, the Euclidean norm of a length-k
vector. -/
noncomputable def nrm2 (k : ℕ) (v : ℕ → ℝ) : ℝ :=
  Real.sqrt (∑ i ∈ Finset.range k, v i * v i)

/-- Modelled from the spec: `Axpy(alpha, u, v)`, returning `v + alpha*u`. -/
noncomputable def axpy (alpha : ℝ) (u v : ℕ → ℝ) : ℕ → ℝ :=
  fun i => v i + alpha * u i

/-- Modelled from the spec: `DiagonalScale(LEFT, NORMAL, d, v)`, the
entrywise product `d ∘ v`. -/
noncomputable def diagonalScale (d v : ℕ → ℝ) : ℕ → ℝ := fun i => d i * v i

/-- Modelled from the spec: `DiagonalSolve(LEFT, NORMAL, d, v)`, the
entrywise quotient `v / d`. -/
noncomputable def diagonalSolve (d v : ℕ → ℝ) : ℕ → ℝ := fun i => v i / d i

/-- Modelled from the spec: `NumNonPositive`, the number of entries of a
length-k vector that are `≤ 0`. -/
noncomputable def numNonPositive (k : ℕ) (v : ℕ → ℝ) : ℕ :=
  ((Finset.range k).filter (fun i => v i ≤ 0)).card

/-- The primal/dual iterate `(x, y, z)` mutated in place by the loop. -/
structure Iterate where
  x : ℕ → ℝ
  y : ℕ → ℝ
  z : ℕ → ℝ

/-- The control options of `IPFCtrl` that the embedded loop reads. -/
structure IPFCtrl where
  equilibrate : Bool
  primalInit : Bool
  dualInit : Bool
  maxIts : ℕ
  targetTol : ℝ
  minTol : ℝ

/-- The primal residual as the loop builds it:
`rb := b; rb *= -1; Gemv( NORMAL, 1, A, x, 1, rb )`. -/
noncomputable def rbVec (n : ℕ) (A : ℕ → ℕ → ℝ) (b x : ℕ → ℝ) : ℕ → ℝ :=
  fun i => (∑ j ∈ Finset.range n, A i j * x j) + (-1) * b i

/-- The dual residual as the loop builds it:
`rc := c; Gemv( TRANSPOSE, 1, A, y, 1, rc ); rc -= z`. -/
noncomputable def rcVec (m : ℕ) (A : ℕ → ℕ → ℝ) (c y z : ℕ → ℝ) : ℕ → ℝ :=
  fun j => (c j + ∑ i ∈ Finset.range m, A i j * y i) - z j

/-- `objConv = |primObj - dualObj| / (1 + |primObj|)` with
`primObj = Dot(c,x)` and `dualObj = -Dot(b,y)`. -/
noncomputable def objConv (m n : ℕ) (b c : ℕ → ℝ) (s : Iterate) : ℝ :=
  |dotk n c s.x - -dotk m b s.y| / (1 + |dotk n c s.x|)

/-- `rbConv = ||rb||_2 / (1 + ||b||_2)`. -/
noncomputable def rbConv (m n : ℕ) (A : ℕ → ℕ → ℝ) (b : ℕ → ℝ)
    (s : Iterate) : ℝ :=
  nrm2 m (rbVec n A b s.x) / (1 + nrm2 m b)

/-- `rcConv = ||rc||_2 / (1 + ||c||_2)`. -/
noncomputable def rcConv (m n : ℕ) (A : ℕ → ℕ → ℝ) (c : ℕ → ℝ)
    (s : Iterate) : ℝ :=
  nrm2 n (rcVec m A c s.y s.z) / (1 + nrm2 n c)

/-- `relError = Max(Max(objConv,rbConv),rcConv)`. -/
noncomputable def relError (m n : ℕ) (A : ℕ → ℕ → ℝ) (b c : ℕ → ℝ)
    (s : Iterate) : ℝ :=
  max (max (objConv m n b c s) (rbConv m n A b s)) (rcConv m n A c s)

/-- Outcome of one execution of the loop body. -/
inductive StepResult where
  | fatalCone (xNumNonPos zNumNonPos : ℕ)
  | convergedBreak (s : Iterate)
  | fatalBudget
  | softBreak (s : Iterate)
  | fatalTol
  | next (s : Iterate)

/-- One execution of the body of the `for( numIts=0; numIts<=maxIts; )`
loop, in source order: cone guard, convergence test, budget test,
direction solve (an oracle returning `none` when the factorization or
solve throws), line search, `Axpy` updates, zero-step test. -/
noncomputable def ipfStep (ctrl : IPFCtrl) (m n : ℕ) (A : ℕ → ℕ → ℝ)
    (b c : ℕ → ℝ)
    (solveDir : ℕ → Iterate → Option ((ℕ → ℝ) × (ℕ → ℝ) × (ℕ → ℝ)))
    (lineSearch : ℕ → Iterate → ((ℕ → ℝ) × (ℕ → ℝ) × (ℕ → ℝ)) → ℝ)
    (numIts : ℕ) (s : Iterate) : StepResult :=
  if 0 < numNonPositive n s.x ∨ 0 < numNonPositive n s.z then
    .fatalCone (numNonPositive n s.x) (numNonPositive n s.z)
  else
    let relErr := relError m n A b c s
    if relErr ≤ ctrl.targetTol then .convergedBreak s
    else if numIts = ctrl.maxIts ∧ relErr > ctrl.minTol then .fatalBudget
    else
      match solveDir numIts s with
      | none => if relErr ≤ ctrl.minTol then .softBreak s else .fatalTol
      | some d =>
        let alpha := lineSearch numIts s d
        let s2 : Iterate :=
          ⟨axpy alpha d.1 s.x, axpy alpha d.2.1 s.y, axpy alpha d.2.2 s.z⟩
        if alpha = 0 then
          (if relErr ≤ ctrl.minTol then .softBreak s2 else .fatalTol)
        else .next s2

/-- How the loop finished when no fatal error was raised. -/
inductive ExitKind where
  | convergedExit
  | softExit
  | budgetExhausted

/-- Outcome of the whole loop. -/
inductive RunResult where
  | fatalCone (xNumNonPos zNumNonPos : ℕ)
  | fatalBudget
  | fatalTol
  | done (s : Iterate) (k : ExitKind)

/-- The iteration loop.  `fuel` is the number of loop-condition checks
remaining, maintained as `ctrl.maxIts + 1 - numIts`; when it reaches `0`
the condition `numIts <= ctrl.maxIts` has failed and the loop falls
through normally. -/
noncomputable def ipfLoop (ctrl : IPFCtrl) (m n : ℕ) (A : ℕ → ℕ → ℝ)
    (b c : ℕ → ℝ)
    (solveDir : ℕ → Iterate → Option ((ℕ → ℝ) × (ℕ → ℝ) × (ℕ → ℝ)))
    (lineSearch : ℕ → Iterate → ((ℕ → ℝ) × (ℕ → ℝ) × (ℕ → ℝ)) → ℝ) :
    ℕ → ℕ → Iterate → RunResult
  | 0, _, s => .done s .budgetExhausted
  | fuel + 1, numIts, s =>
    match ipfStep ctrl m n A b c solveDir lineSearch numIts s with
    | .fatalCone a bb => .fatalCone a bb
    | .convergedBreak s2 => .done s2 .convergedExit
    | .fatalBudget => .fatalBudget
    | .softBreak s2 => .done s2 .softExit
    | .fatalTol => .fatalTol
    | .next s2 =>
      ipfLoop ctrl m n A b c solveDir lineSearch fuel (numIts + 1) s2

/-- The forward equilibration applied to a caller-supplied iterate before
the loop (inside `if( ctrl.equilibrate )`): `x` is `DiagonalScale`d by
`dCol` when `ctrl.primalInit`, and `y`/`z` are `DiagonalScale`d by `dRow`
and `DiagonalSolve`d by `dCol` when `ctrl.dualInit`. -/
noncomputable def equilibrateIterate (ctrl : IPFCtrl) (dRow dCol : ℕ → ℝ)
    (s : Iterate) : Iterate :=
  ⟨if ctrl.primalInit then diagonalScale dCol s.x else s.x,
   if ctrl.dualInit then diagonalScale dRow s.y else s.y,
   if ctrl.dualInit then diagonalSolve dCol s.z else s.z⟩

/-- The post-loop unequilibration (inside the trailing
`if( ctrl.equilibrate )`): `DiagonalSolve( dCol, x )`,
`DiagonalSolve( dRow, y )`, `DiagonalScale( dCol, z )`. -/
noncomputable def unequilibrateIterate (dRow dCol : ℕ → ℝ)
    (s : Iterate) : Iterate :=
  ⟨diagonalSolve dCol s.x, diagonalSolve dRow s.y, diagonalScale dCol s.z⟩

/-- The whole dense `IPF` call: equilibrate, initial-iterate setup (the
`Initialize` collaborator, taken as an oracle), loop, and unequilibrate
on the non-throwing paths.
A thrown `LogicError`/`RuntimeError` aborts the call, so no
unequilibration happens on the fatal paths. -/
noncomputable def IPF (ctrl : IPFCtrl) (m n : ℕ) (A : ℕ → ℕ → ℝ)
    (b c : ℕ → ℝ) (dRow dCol : ℕ → ℝ)
    (initIterate : Iterate → Iterate)
    (solveDir : ℕ → Iterate → Option ((ℕ → ℝ) × (ℕ → ℝ) × (ℕ → ℝ)))
    (lineSearch : ℕ → Iterate → ((ℕ → ℝ) × (ℕ → ℝ) × (ℕ → ℝ)) → ℝ)
    (s0 : Iterate) : RunResult :=
  let s1 := if ctrl.equilibrate then equilibrateIterate ctrl dRow dCol s0
            else s0
  let s2 := initIterate s1
  match ipfLoop ctrl m n A b c solveDir lineSearch (ctrl.maxIts + 1) 0 s2 with
  | .done s3 k =>
      .done (if ctrl.equilibrate then unequilibrateIterate dRow dCol s3
             else s3) k
  | r => r

/-- The three KKT formulations selectable through `ctrl.system`. -/
inductive KKTSystem where
  | FULL_KKT
  | AUGMENTED_KKT
  | NORMAL_KKT

/-- The guard under which the body of the sequential sparse `IPF` loop
calls `NestedDissection`, lifted from the three `ctrl.system` branches:
`numIts == 0` for `FULL_KKT` and `NORMAL_KKT`, and
`ctrl.primalInit && ctrl.dualInit && numIts == 0` for `AUGMENTED_KKT`. -/
def sparseNDGate (system : KKTSystem) (primalInit dualInit : Bool)
    (numIts : ℕ) : Bool :=
  match system with
  | .FULL_KKT => numIts == 0
  | .AUGMENTED_KKT => primalInit && dualInit && (numIts == 0)
  | .NORMAL_KKT => numIts == 0

/-- The same guard in the distributed sparse `IPF` loop, where the
`AUGMENTED_KKT` branch nests `if( ctrl.primalInit && ctrl.dualInit )`
inside `if( numIts == 0 )`. -/
def distSparseNDGate (system : KKTSystem) (primalInit dualInit : Bool)
    (numIts : ℕ) : Bool :=
  match system with
  | .FULL_KKT => numIts == 0
  | .AUGMENTED_KKT => (numIts == 0) && (primalInit && dualInit)
  | .NORMAL_KKT => numIts == 0

end direct

end lp

end El

namespace elem

namespace mshs

/-! ## Multi-shift Hessenberg solve

Shallow embedding of `mshs::LN` and `mshs::UN` from
`include/elemental/lapack-like/solve/MultiShiftHessSolve.hpp`, taken over
the real field (where `Conj` is the identity).  The `j`-indexed inner
loops of the source act on disjoint per-column state (`W(:,j)`, `C(:,j)`,
`S(:,j)`, `X(:,j)` and shift `j`), so the embedding processes one column
at a time: the single-column functions below are the body of the source
loops for a fixed `j`, and `LN`/`UN` apply them to every column.
Because exact real arithmetic replaces floating point, there is no
rounding; the solves are exact. -/

/-- The shifted matrix `H - mu I`. -/
noncomputable def Msh (H : ℕ → ℕ → ℝ) (mu : ℝ) (i j : ℕ) : ℝ :=
  if i = j then H i j - mu else H i j

/-- Modelled from the spec: `lapack::ComputeGivens(f, g, &c, &s, &rho)`
(an external LAPACK collaborator, not part of the excerpt) computes a
Givens rotation, cosine `c` and sine `s`, zeroing the second component of
the pair: `-s*f + c*g = 0` with `c^2 + s^2 = 1`. -/
noncomputable def computeGivens (f g : ℝ) : ℝ × ℝ :=
  if f = 0 ∧ g = 0 then (1, 0)
  else (f / Real.sqrt (f ^ 2 + g ^ 2), g / Real.sqrt (f ^ 2 + g ^ 2))

/-- `mshs::LN`, forward sweep, working vector: `lnW k` is `W(:,j)` at the
start of step `k` of the `for( k=0; k<m-1; ）` loop: `W(:,j)` is
initialised to the first column of `H` with `W(0,j) -= shift`, and step
`k` sets `W(i,j) := -s*W(i,j) + c*(H(i,k+1) - (i==k+1 ? mu : 0))` for
`i >= k+1`.  The function extends the update to every row; the source
only stores and reads rows `>= k`. -/
noncomputable def lnW (H : ℕ → ℕ → ℝ) (mu : ℝ) : ℕ → ℕ → ℝ
  | 0, i => Msh H mu i 0
  | k + 1, i =>
    let cs := computeGivens (lnW H mu k k) (H k (k + 1));
    -cs.2 * lnW H mu k i + cs.1 * Msh H mu i (k + 1)

/-- The Givens pair recorded in `C(k,j)`, `S(k,j)` at step `k`:
`ComputeGivens( W(k,j), H(k,k+1) )`. -/
noncomputable def lnCS (H : ℕ → ℕ → ℝ) (mu : ℝ) (k : ℕ) : ℝ × ℝ :=
  computeGivens (lnW H mu k k) (H k (k + 1))

/-- `mshs::LN`, forward sweep, solution column: `lnXf k` is `X(:,j)`
after scaling by `alpha` and the first `k` elimination steps.  Step `k`
divides `X(k,j)` by the pivot `lambdakk = c*W(k,j) + s*H(k,k+1)` and
subtracts `X(k,j) * (c*W(i,j) + s*(H(i,k+1) - (i==k+1 ? mu : 0)))` from
`X(i,j)` for `i > k` (the `X.Update(k+1,...)` line and the two `Axpy`
calls). -/
noncomputable def lnXf (H : ℕ → ℕ → ℝ) (mu alpha : ℝ) (b : ℕ → ℝ) :
    ℕ → ℕ → ℝ
  | 0, i => alpha * b i
  | k + 1, i =>
    let cs := lnCS H mu k
    let lambdakk := cs.1 * lnW H mu k k + cs.2 * H k (k + 1)
    let xk := lnXf H mu alpha b k k / lambdakk
    if i < k then lnXf H mu alpha b k i
    else if i = k then xk
    else lnXf H mu alpha b k i -
      xk * (cs.1 * lnW H mu k i + cs.2 * Msh H mu i (k + 1))

/-- Column `l` of the triangular factor the sweep eliminates against:
`c_l*W^(l)(i) + s_l*(H(i,l+1) - (i==l+1 ? mu : 0))` for `l < m-1`, and
the final working column for `l = m-1` (whose diagonal entry
`W(m-1,j)` is the last pivot). -/
noncomputable def lnL (H : ℕ → ℕ → ℝ) (mu : ℝ) (m : ℕ) (i l : ℕ) : ℝ :=
  if l = m - 1 then lnW H mu l i
  else (lnCS H mu l).1 * lnW H mu l i + (lnCS H mu l).2 * Msh H mu i (l + 1)

/-- The value stored in `X(k,j)` by the forward sweep (for `k < m-1` the
division by `lambdakk` at step `k`, for `k = m-1` the final
`X(m-1,j) / W(m-1,j)` division). -/
noncomputable def lnY (H : ℕ → ℕ → ℝ) (mu alpha : ℝ) (b : ℕ → ℝ)
    (m k : ℕ) : ℝ :=
  lnXf H mu alpha b k k / lnL H mu m k k

/-- `mshs::LN`, backward sweep (`Solve against Q`): `lnV t` is the
solution vector after the stored rotations `k = m-2, ..., m-1-t` have
been applied; `lnV 0` is the output of the forward sweep, and step `t`
applies rotation `k = m-2-t` the way the `t1`/`t2` recurrence does:
`X(k+1,j) := C(k,j)*t1 + S(k,j)*t2`, `t1 := C(k,j)*t2 - S(k,j)*t1`. -/
noncomputable def lnV (H : ℕ → ℕ → ℝ) (mu alpha : ℝ) (b : ℕ → ℝ) (m : ℕ) :
    ℕ → ℕ → ℝ
  | 0, i => lnY H mu alpha b m i
  | t + 1, i =>
    let k := m - 2 - t
    let cs := lnCS H mu k
    if i = k then
      cs.1 * lnV H mu alpha b m t k - cs.2 * lnV H mu alpha b m t (k + 1)
    else if i = k + 1 then
      cs.2 * lnV H mu alpha b m t k + cs.1 * lnV H mu alpha b m t (k + 1)
    else lnV H mu alpha b m t i

/-- The column of `X` produced by `mshs::LN` for one shift `mu`: `alpha`
times the column when `m = 0` (the early return after `Scale`), and the
result of the forward and backward sweeps otherwise. -/
noncomputable def lnSolve (H : ℕ → ℕ → ℝ) (mu alpha : ℝ) (b : ℕ → ℝ)
    (m : ℕ) : ℕ → ℝ :=
  if m = 0 then fun i => alpha * b i else lnV H mu alpha b m (m - 1)

/-- `mshs::LN( alpha, H, shifts, X )`: every column `j` is processed
independently with its own shift. -/
noncomputable def LN (alpha : ℝ) (H : ℕ → ℕ → ℝ) (shifts : ℕ → ℝ)
    (X : ℕ → ℕ → ℝ) (m : ℕ) : ℕ → ℕ → ℝ :=
  fun i j => lnSolve H (shifts j) alpha (fun i2 => X i2 j) m i

/-- The matrix `(H - mu I) G_0^T ... G_{K-1}^T` of the partially rotated
system: columns `< K` are final (`lnL`), column `K` is the working
column, columns `> K` are untouched. -/
noncomputable def lnN (H : ℕ → ℕ → ℝ) (mu : ℝ) (m K : ℕ) (i l : ℕ) : ℝ :=
  if l < K then lnL H mu m i l
  else if l = K then lnW H mu K i
  else Msh H mu i l

/-- `mshs::UN`, forward (bottom-up) sweep, working vector: `unW t` is
`W(:,j)` at the start of step `t` of the `for( k=m-1; k>0; ）` loop,
which processes column `k = m-1-t`: `W(:,j)` is initialised to the last
column of `H` with `W(m-1,j) -= shift`, and the step sets
`W(i,j) := -s*W(i,j) + c*(H(i,k-1) - (i==k-1 ? mu : 0))` for `i <= k-1`
(extended here to every row). -/
noncomputable def unW (H : ℕ → ℕ → ℝ) (mu : ℝ) (m : ℕ) : ℕ → ℕ → ℝ
  | 0, i => Msh H mu i (m - 1)
  | t + 1, i =>
    let k := m - 1 - t
    let cs := computeGivens (unW H mu m t k) (H k (k - 1));
    -cs.2 * unW H mu m t i + cs.1 * Msh H mu i (k - 1)

/-- The Givens pair recorded in `C(k,j)`, `S(k,j)` when `mshs::UN`
processes column `k = m-1-t`: `ComputeGivens( W(k,j), H(k,k-1) )`. -/
noncomputable def unCS (H : ℕ → ℕ → ℝ) (mu : ℝ) (m t : ℕ) : ℝ × ℝ :=
  computeGivens (unW H mu m t (m - 1 - t)) (H (m - 1 - t) (m - 1 - t - 1))

/-- `mshs::UN`, forward sweep, solution column after `t` steps. -/
noncomputable def unXf (H : ℕ → ℕ → ℝ) (mu alpha : ℝ) (b : ℕ → ℝ)
    (m : ℕ) : ℕ → ℕ → ℝ
  | 0, i => alpha * b i
  | t + 1, i =>
    let k := m - 1 - t
    let cs := unCS H mu m t
    let rhokk := cs.1 * unW H mu m t k + cs.2 * H k (k - 1)
    let xk := unXf H mu alpha b m t k / rhokk
    if k < i then unXf H mu alpha b m t i
    else if i = k then xk
    else unXf H mu alpha b m t i -
      xk * (cs.1 * unW H mu m t i + cs.2 * Msh H mu i (k - 1))

/-- Column `l` of the upper-triangular factor of the `UN` sweep. -/
noncomputable def unR (H : ℕ → ℕ → ℝ) (mu : ℝ) (m : ℕ) (i l : ℕ) : ℝ :=
  if l = 0 then unW H mu m (m - 1) i
  else (unCS H mu m (m - 1 - l)).1 * unW H mu m (m - 1 - l) i +
       (unCS H mu m (m - 1 - l)).2 * Msh H mu i (l - 1)

/-- The value stored in `X(k,j)` by the `UN` forward sweep. -/
noncomputable def unY (H : ℕ → ℕ → ℝ) (mu alpha : ℝ) (b : ℕ → ℝ)
    (m k : ℕ) : ℝ :=
  unXf H mu alpha b m (m - 1 - k) k / unR H mu m k k

/-- `mshs::UN`, backward sweep: `unV s` is the solution vector after the
stored rotations `k = 1, ..., s` have been applied in the order the
`t1`/`t2` recurrence applies them. -/
noncomputable def unV (H : ℕ → ℕ → ℝ) (mu alpha : ℝ) (b : ℕ → ℝ)
    (m : ℕ) : ℕ → ℕ → ℝ
  | 0, i => unY H mu alpha b m i
  | s + 1, i =>
    let k := s + 1
    let cs := unCS H mu m (m - 1 - k)
    if i = k then
      cs.1 * unV H mu alpha b m s k - cs.2 * unV H mu alpha b m s (k - 1)
    else if i = k - 1 then
      cs.2 * unV H mu alpha b m s k + cs.1 * unV H mu alpha b m s (k - 1)
    else unV H mu alpha b m s i

/-- The column of `X` produced by `mshs::UN` for one shift `mu`. -/
noncomputable def unSolve (H : ℕ → ℕ → ℝ) (mu alpha : ℝ) (b : ℕ → ℝ)
    (m : ℕ) : ℕ → ℝ :=
  if m = 0 then fun i => alpha * b i else unV H mu alpha b m (m - 1)

/-- `mshs::UN( alpha, H, shifts, X )`: every column `j` is processed
independently with its own shift. -/
noncomputable def UN (alpha : ℝ) (H : ℕ → ℕ → ℝ) (shifts : ℕ → ℝ)
    (X : ℕ → ℕ → ℝ) (m : ℕ) : ℕ → ℕ → ℝ :=
  fun i j => unSolve H (shifts j) alpha (fun i2 => X i2 j) m i

/-- The partially rotated matrix of the `UN` sweep: columns `> K` are
final (`unR`), column `K` is the working column, columns `< K` are
untouched. -/
noncomputable def unN (H : ℕ → ℕ → ℝ) (mu : ℝ) (m K : ℕ) (i l : ℕ) : ℝ :=
  if K < l then unR H mu m i l
  else if l = K then unW H mu m (m - 1 - K) i
  else Msh H mu i l

end mshs

end elem

/-- A 1x1 instance for the C1 witness: `H = (3)`. -/
noncomputable def wH : ℕ → ℕ → ℝ := fun i j =>
  if i = 0 ∧ j = 0 then 3 else 0

/-- The 3x3 upper Hessenberg counterexample matrix for C1:
rows `(3,4,1)`, `(0,5,4)`, `(0,1,1)`. -/
noncomputable def ceH : ℕ → ℕ → ℝ := fun i j =>
  if i = 0 then (if j = 0 then 3 else if j = 1 then 4 else
    if j = 2 then 1 else 0)
  else if i = 1 then (if j = 1 then 5 else if j = 2 then 4 else 0)
  else if i = 2 then (if j = 1 then 1 else if j = 2 then 1 else 0)
  else 0

/-- The right-hand side `(0,1,0)` of the C1 counterexample. -/
noncomputable def ceb : ℕ → ℝ := fun i => if i = 1 then 1 else 0

/-! ## Lemmas and theorems -/

namespace El

/-- Value of the step when the first guard (shrink the denominator) fires. -/
lemma SafeScaleStep_shrinkDen {smallNum bigNum num den : ℚ}
    (h1 : |den * smallNum| > |num| ∧ num ≠ 0) :
    SafeScaleStep smallNum bigNum num den =
      (false, num, den * smallNum, smallNum) := by
  simp only [SafeScaleStep]
  rw [if_pos h1]

/-- Value of the step when only the second guard (shrink the numerator)
fires. -/
lemma SafeScaleStep_shrinkNum {smallNum bigNum num den : ℚ}
    (h1 : ¬ (|den * smallNum| > |num| ∧ num ≠ 0))
    (h2 : |num / bigNum| > |den|) :
    SafeScaleStep smallNum bigNum num den =
      (false, num / bigNum, den, bigNum) := by
  simp only [SafeScaleStep]
  rw [if_neg h1, if_pos h2]

/-- Value of the step when neither guard fires: the final ratio. -/
lemma SafeScaleStep_done {smallNum bigNum num den : ℚ}
    (h1 : ¬ (|den * smallNum| > |num| ∧ num ≠ 0))
    (h2 : ¬ |num / bigNum| > |den|) :
    SafeScaleStep smallNum bigNum num den = (true, num, den, num / den) := by
  simp only [SafeScaleStep]
  rw [if_neg h1, if_neg h2]

lemma SafeScaleAlphas_succ_shrinkDen {smallNum bigNum num den : ℚ} {fuel : ℕ}
    (h1 : |den * smallNum| > |num| ∧ num ≠ 0) :
    SafeScaleAlphas smallNum bigNum (fuel + 1) num den =
      (SafeScaleAlphas smallNum bigNum fuel num (den * smallNum)).map
        (fun l => smallNum :: l) := by
  rw [SafeScaleAlphas, SafeScaleStep_shrinkDen h1]
  rfl

lemma SafeScaleAlphas_succ_shrinkNum {smallNum bigNum num den : ℚ} {fuel : ℕ}
    (h1 : ¬ (|den * smallNum| > |num| ∧ num ≠ 0))
    (h2 : |num / bigNum| > |den|) :
    SafeScaleAlphas smallNum bigNum (fuel + 1) num den =
      (SafeScaleAlphas smallNum bigNum fuel (num / bigNum) den).map
        (fun l => bigNum :: l) := by
  rw [SafeScaleAlphas, SafeScaleStep_shrinkNum h1 h2]
  rfl

lemma SafeScaleAlphas_succ_done {smallNum bigNum num den : ℚ} {fuel : ℕ}
    (h1 : ¬ (|den * smallNum| > |num| ∧ num ≠ 0))
    (h2 : ¬ |num / bigNum| > |den|) :
    SafeScaleAlphas smallNum bigNum (fuel + 1) num den = some [num / den] := by
  rw [SafeScaleAlphas, SafeScaleStep_done h1 h2]
  rfl

lemma foldl_scaleEntries (l : List ℚ) :
    ∀ A : List ℚ, l.foldl (fun B alpha => scaleEntries alpha B) A =
      A.map (fun t => l.prod * t) := by
  induction l with
  | nil => intro A; simp
  | cons a l ih =>
      intro A
      rw [List.prod_cons, List.foldl_cons, ih, scaleEntries, List.map_map]
      apply List.map_congr_left
      intro t _
      simp only [Function.comp_apply]
      ring

lemma safeScaleAlphas_prod (smallNum bigNum : ℚ)
    (hs : 0 < smallNum) (hb : bigNum = 1 / smallNum) :
    ∀ (fuel : ℕ) (num den : ℚ) (l : List ℚ), den ≠ 0 →
      SafeScaleAlphas smallNum bigNum fuel num den = some l →
      l.prod = num / den := by
  have hsne : smallNum ≠ 0 := ne_of_gt hs
  have hbne : bigNum ≠ 0 := by rw [hb]; exact one_div_ne_zero hsne
  intro fuel
  induction fuel with
  | zero => intro num den l _ h; simp [SafeScaleAlphas] at h
  | succ fuel ih =>
      intro num den l hden h
      by_cases h1 : |den * smallNum| > |num| ∧ num ≠ 0
      · rw [SafeScaleAlphas_succ_shrinkDen h1] at h
        simp only [Option.map_eq_some'] at h
        obtain ⟨l2, hl2, rfl⟩ := h
        have := ih num (den * smallNum) l2 (mul_ne_zero hden hsne) hl2
        rw [List.prod_cons, this]
        field_simp
        ring
      · by_cases h2 : |num / bigNum| > |den|
        · rw [SafeScaleAlphas_succ_shrinkNum h1 h2] at h
          simp only [Option.map_eq_some'] at h
          obtain ⟨l2, hl2, rfl⟩ := h
          have := ih (num / bigNum) den l2 hden hl2
          rw [List.prod_cons, this]
          field_simp
          ring
        · rw [SafeScaleAlphas_succ_done h1 h2] at h
          simp only [Option.some_inj] at h
          subst h
          simp

/-- The two guard conditions of `SafeScaleStep` cannot both hold: that
would force `smallNum^2 > 1`. -/
lemma safeScaleStep_guards_exclusive (smallNum bigNum num den : ℚ)
    (hs0 : 0 < smallNum) (hs1 : smallNum < 1) (hb : bigNum = 1 / smallNum)
    (hden : den ≠ 0)
    (h1 : |den * smallNum| > |num| ∧ num ≠ 0) :
    ¬ |num / bigNum| > |den| := by
  intro h2
  have hd : (0:ℚ) < |den| := abs_pos.mpr hden
  have hn : (0:ℚ) < |num| := abs_pos.mpr h1.2
  have e1 : |den * smallNum| = |den| * smallNum := by
    rw [abs_mul, abs_of_pos hs0]
  have e2 : |num / bigNum| = |num| * smallNum := by
    rw [hb, div_eq_mul_inv, one_div, inv_inv, abs_mul, abs_of_pos hs0]
  rw [e1] at h1
  rw [e2] at h2
  nlinarith [h1.1, h2]

/-- A run of denominator-shrinking steps terminates: if the second guard
fails at entry and the denominator has been given enough shrinking room,
the loop finishes within the given fuel. -/
lemma safeScaleAlphas_terminates_denRun (smallNum bigNum : ℚ)
    (hs0 : 0 < smallNum) (hs1 : smallNum < 1) (hb : bigNum = 1 / smallNum) :
    ∀ (k : ℕ) (num den : ℚ),
      ¬ |num / bigNum| > |den| →
      (|den| * smallNum ^ (k + 1) ≤ |num| ∨ num = 0) →
      ∃ l, SafeScaleAlphas smallNum bigNum (k + 1) num den = some l := by
  intro k
  induction k with
  | zero =>
      intro num den h2 hbound
      have h1 : ¬ (|den * smallNum| > |num| ∧ num ≠ 0) := by
        rcases hbound with hle | rfl
        · rintro ⟨hgt, -⟩
          rw [abs_mul, abs_of_pos hs0] at hgt
          rw [pow_one] at hle
          linarith
        · rintro ⟨-, hne⟩; exact hne rfl
      exact ⟨[num / den], SafeScaleAlphas_succ_done h1 h2⟩
  | succ k ih =>
      intro num den h2 hbound
      by_cases h1 : |den * smallNum| > |num| ∧ num ≠ 0
      · have hnum0 : (0:ℚ) < |num| := abs_pos.mpr h1.2
        have h2b : ¬ |num / bigNum| > |den * smallNum| := by
          have e2 : |num / bigNum| = |num| * smallNum := by
            rw [hb, div_eq_mul_inv, one_div, inv_inv, abs_mul, abs_of_pos hs0]
          rw [e2]
          have : |num| * smallNum < |num| := by nlinarith
          push_neg
          exact le_of_lt (lt_trans this h1.1)
        have hboundb : |den * smallNum| * smallNum ^ (k + 1) ≤ |num| ∨ num = 0 := by
          rcases hbound with hle | h0
          · left
            rw [abs_mul, abs_of_pos hs0, mul_assoc, ← pow_succ']
            exact hle
          · right; exact h0
        obtain ⟨l, hl⟩ := ih num (den * smallNum) h2b hboundb
        refine ⟨smallNum :: l, ?_⟩
        rw [SafeScaleAlphas_succ_shrinkDen h1, hl]
        rfl
      · exact ⟨[num / den], SafeScaleAlphas_succ_done h1 h2⟩

/-- A run of numerator-shrinking steps terminates: if the first guard
fails at entry and the numerator has enough shrinking room, the loop
finishes within the given fuel. -/
lemma safeScaleAlphas_terminates_numRun (smallNum bigNum : ℚ)
    (hs0 : 0 < smallNum) (hs1 : smallNum < 1) (hb : bigNum = 1 / smallNum) :
    ∀ (k : ℕ) (num den : ℚ), den ≠ 0 →
      ¬ (|den * smallNum| > |num| ∧ num ≠ 0) →
      |num| * smallNum ^ k ≤ |den| →
      ∃ l, SafeScaleAlphas smallNum bigNum (k + 1) num den = some l := by
  have e2 : ∀ num : ℚ, |num / bigNum| = |num| * smallNum := by
    intro num
    rw [hb, div_eq_mul_inv, one_div, inv_inv, abs_mul, abs_of_pos hs0]
  intro k
  induction k with
  | zero =>
      intro num den hden h1 hbound
      rw [pow_zero, mul_one] at hbound
      have h2 : ¬ |num / bigNum| > |den| := by
        rw [e2]
        push_neg
        have : |num| * smallNum ≤ |num| := by
          nlinarith [abs_nonneg num]
        linarith
      exact ⟨[num / den], SafeScaleAlphas_succ_done h1 h2⟩
  | succ k ih =>
      intro num den hden h1 hbound
      by_cases h2 : |num / bigNum| > |den|
      · have hdpos : (0:ℚ) < |den| := abs_pos.mpr hden
        have h1b : ¬ (|den * smallNum| > |num / bigNum| ∧ num / bigNum ≠ 0) := by
          rintro ⟨hgt, -⟩
          rw [abs_mul, abs_of_pos hs0] at hgt
          rw [e2] at hgt h2
          nlinarith
        have hboundb : |num / bigNum| * smallNum ^ k ≤ |den| := by
          rw [e2, mul_assoc, ← pow_succ']
          exact hbound
        obtain ⟨l, hl⟩ := ih (num / bigNum) den hden h1b hboundb
        refine ⟨bigNum :: l, ?_⟩
        rw [SafeScaleAlphas_succ_shrinkNum h1 h2, hl]
        rfl
      · exact ⟨[num / den], SafeScaleAlphas_succ_done h1 h2⟩

end El

/-- C8: for every numerator and every nonzero denominator, the product of
the scale factors `alpha` applied by the `SafeScale` loop equals exactly
`numerator/denominator` in exact arithmetic, so the target matrix is
multiplied in aggregate by `numerator/denominator`. -/
theorem safeScale_aggregate_ratio
    (smallNum bigNum num den : ℚ) (fuel : ℕ) (l : List ℚ) (A : List ℚ)
    (hs : 0 < smallNum) (hb : bigNum = 1 / smallNum) (hden : den ≠ 0)
    (hrun : El.SafeScaleAlphas smallNum bigNum fuel num den = some l) :
    l.prod = num / den ∧
      El.SafeScale smallNum bigNum fuel num den A =
        some (A.map (fun t => (num / den) * t)) := by
  have hp := El.safeScaleAlphas_prod smallNum bigNum hs hb fuel num den l hden hrun
  refine ⟨hp, ?_⟩
  rw [El.SafeScale, hrun, Option.map_some', El.foldl_scaleEntries, hp]

/-- Witness for C8 at `smallNum = 1/2`, `numerator = 1`, `denominator = 3`:
the loop produces the factors `[1/2, 2/3]` whose product is `1/3`. -/
theorem safeScale_aggregate_ratio_witness :
    ([(1:ℚ)/2, 2/3].prod = 1 / 3) ∧
      El.SafeScale (1/2) 2 2 1 3 [1] =
        some (([1] : List ℚ).map (fun t => (1 / 3) * t)) :=
  safeScale_aggregate_ratio (1/2) 2 1 3 2 [1/2, 2/3] [1]
    (by norm_num) (by norm_num) (by norm_num)
    (by
      have h1a : |(3:ℚ) * (1/2)| > |(1:ℚ)| ∧ (1:ℚ) ≠ 0 := by
        constructor
        · rw [show |(3:ℚ) * (1/2)| = 3/2 by rw [abs_of_pos] <;> norm_num,
            show |(1:ℚ)| = 1 by rw [abs_of_pos] <;> norm_num]
          norm_num
        · norm_num
      rw [El.SafeScaleAlphas_succ_shrinkDen h1a]
      have h1b : ¬ (|(3:ℚ) * (1/2) * (1/2)| > |(1:ℚ)| ∧ (1:ℚ) ≠ 0) := by
        rw [show |(3:ℚ) * (1/2) * (1/2)| = 3/4 by rw [abs_of_pos] <;> norm_num,
          show |(1:ℚ)| = 1 by rw [abs_of_pos] <;> norm_num]
        norm_num
      have h2b : ¬ |(1:ℚ) / 2| > |(3:ℚ) * (1/2)| := by
        rw [show |(1:ℚ) / 2| = 1/2 by rw [abs_of_pos] <;> norm_num,
          show |(3:ℚ) * (1/2)| = 3/2 by rw [abs_of_pos] <;> norm_num]
        norm_num
      rw [El.SafeScaleAlphas_succ_done h1b h2b]
      norm_num)

/-- C9: for every numerator and every nonzero denominator the `SafeScale`
loop terminates: with enough fuel, the iterated `SafeScaleStep` reaches
the `done` state. -/
theorem safeScale_terminates
    (smallNum bigNum num den : ℚ)
    (hs0 : 0 < smallNum) (hs1 : smallNum < 1) (hb : bigNum = 1 / smallNum)
    (hden : den ≠ 0) :
    ∃ fuel l, El.SafeScaleAlphas smallNum bigNum fuel num den = some l := by
  by_cases hnum : num = 0
  · have h1 : ¬ (|den * smallNum| > |num| ∧ num ≠ 0) := by
      rintro ⟨-, hne⟩; exact hne hnum
    have h2 : ¬ |num / bigNum| > |den| := by
      subst hnum
      simp [abs_nonneg]
    exact ⟨1, [num / den], El.SafeScaleAlphas_succ_done h1 h2⟩
  · have hn : (0:ℚ) < |num| := abs_pos.mpr hnum
    have hd : (0:ℚ) < |den| := abs_pos.mpr hden
    by_cases h2 : |num / bigNum| > |den|
    · have h1 : ¬ (|den * smallNum| > |num| ∧ num ≠ 0) := fun h1 =>
        El.safeScaleStep_guards_exclusive smallNum bigNum num den
          hs0 hs1 hb hden h1 h2
      obtain ⟨k, hk⟩ :=
        exists_pow_lt_of_lt_one (div_pos hd hn) hs1
      have hbound : |num| * smallNum ^ k ≤ |den| := by
        have h4 := mul_lt_mul_of_pos_left hk hn
        have h5 : |num| * (|den| / |num|) = |den| := by field_simp
        rw [h5] at h4
        exact le_of_lt h4
      obtain ⟨l, hl⟩ := El.safeScaleAlphas_terminates_numRun smallNum bigNum
        hs0 hs1 hb k num den hden h1 hbound
      exact ⟨k + 1, l, hl⟩
    · obtain ⟨k, hk⟩ :=
        exists_pow_lt_of_lt_one (div_pos hn hd) hs1
      have hbound : |den| * smallNum ^ (k + 1) ≤ |num| := by
        have hk2 : smallNum ^ (k + 1) ≤ smallNum ^ k :=
          pow_le_pow_of_le_one (le_of_lt hs0) (le_of_lt hs1) (Nat.le_succ k)
        have h4 := mul_lt_mul_of_pos_left hk hd
        have h5 : |den| * (|num| / |den|) = |num| := by field_simp
        rw [h5] at h4
        have h6 : |den| * smallNum ^ (k + 1) ≤ |den| * smallNum ^ k :=
          mul_le_mul_of_nonneg_left hk2 hd.le
        linarith
      obtain ⟨l, hl⟩ := El.safeScaleAlphas_terminates_denRun smallNum bigNum
        hs0 hs1 hb k num den h2 (Or.inl hbound)
      exact ⟨k + 1, l, hl⟩

/-- Witness for C9 at `smallNum = 1/2`, `numerator = 1`, `denominator = 3`. -/
theorem safeScale_terminates_witness :
    ∃ fuel l, El.SafeScaleAlphas (1/2) 2 fuel 1 3 = some l :=
  safeScale_terminates (1/2) 2 1 3 (by norm_num) (by norm_num) (by norm_num)
    (by norm_num)

namespace El

namespace lp

namespace direct

lemma numNonPositive_eq_zero_iff (k : ℕ) (v : ℕ → ℝ) :
    numNonPositive k v = 0 ↔ ∀ i, i < k → 0 < v i := by
  unfold numNonPositive
  rw [Finset.card_eq_zero, Finset.filter_eq_empty_iff]
  constructor
  · intro h i hi
    exact not_le.mp (h (Finset.mem_range.mpr hi))
  · intro h i hi
    exact not_le.mpr (h i (Finset.mem_range.mp hi))

lemma numNonPositive_pos_iff (k : ℕ) (v : ℕ → ℝ) :
    0 < numNonPositive k v ↔ ∃ i, i < k ∧ v i ≤ 0 := by
  unfold numNonPositive
  rw [Finset.card_pos, Finset.Nonempty]
  constructor
  · rintro ⟨i, hi⟩
    rw [Finset.mem_filter, Finset.mem_range] at hi
    exact ⟨i, hi⟩
  · rintro ⟨i, hi, hv⟩
    exact ⟨i, Finset.mem_filter.mpr ⟨Finset.mem_range.mpr hi, hv⟩⟩

lemma ipfStep_guard_passes {n : ℕ} {s : Iterate}
    (hpos : ∀ i, i < n → 0 < s.x i ∧ 0 < s.z i) :
    ¬ (0 < numNonPositive n s.x ∨ 0 < numNonPositive n s.z) := by
  rintro (h | h) <;> rw [numNonPositive_pos_iff] at h <;>
    obtain ⟨i, hi, hv⟩ := h
  · exact absurd hv (not_le.mpr (hpos i hi).1)
  · exact absurd hv (not_le.mpr (hpos i hi).2)

end direct

end lp

end El

open El.lp.direct in
/-- C2 counterexample: the post-loop unequilibration divides `y` by
`dRow` (`DiagonalSolve`), so with `dRow = (2)` and `y = (1)` its output
entry is `1/2`, not the `dRow`-scaled value `2 * 1` the claim states. -/
theorem ipf_unequilibrate_y_counterexample :
    (unequilibrateIterate (fun _ => (2:ℝ)) (fun _ => 1)
        ⟨fun _ => 1, fun _ => 1, fun _ => 1⟩).y 0 ≠ 2 * 1 := by
  show (1:ℝ) / 2 ≠ 2 * 1
  norm_num

open El.lp.direct in
/-- C2 (amended): when `ctrl.equilibrate` holds, the post-loop
unequilibration scales `x` by the inverse of `dCol`, `y` by the inverse
of `dRow`, and `z` by `dCol`; for nonzero scaling vectors this exactly
undoes the forward equilibration scaling applied to a caller-supplied
`x`, `y`, `z` before the loop, independently of what the loop did in
between. -/
theorem ipf_unequilibrate_inverts_equilibrate
    (ctrl : IPFCtrl) (dRow dCol : ℕ → ℝ) (s : Iterate)
    (hp : ctrl.primalInit = true) (hd : ctrl.dualInit = true)
    (hRow : ∀ i, dRow i ≠ 0) (hCol : ∀ i, dCol i ≠ 0) :
    (∀ i, (unequilibrateIterate dRow dCol
        (equilibrateIterate ctrl dRow dCol s)).x i = s.x i) ∧
    (∀ i, (unequilibrateIterate dRow dCol
        (equilibrateIterate ctrl dRow dCol s)).y i = s.y i) ∧
    (∀ i, (unequilibrateIterate dRow dCol
        (equilibrateIterate ctrl dRow dCol s)).z i = s.z i) := by
  refine ⟨fun i => ?_, fun i => ?_, fun i => ?_⟩
  · simp only [unequilibrateIterate, equilibrateIterate, diagonalScale,
      diagonalSolve, hp, if_true]
    exact mul_div_cancel_left₀ _ (hCol i)
  · simp only [unequilibrateIterate, equilibrateIterate, diagonalScale,
      diagonalSolve, hd, if_true]
    exact mul_div_cancel_left₀ _ (hRow i)
  · simp only [unequilibrateIterate, equilibrateIterate, diagonalScale,
      diagonalSolve, hd, if_true]
    rw [mul_comm]
    exact div_mul_cancel₀ _ (hCol i)

open El.lp.direct in
/-- Witness for C2 (amended) with `dRow = dCol = (2)` and iterate
`(1,1,1)`. -/
theorem ipf_unequilibrate_inverts_equilibrate_witness :
    (∀ i, (unequilibrateIterate (fun _ => (2:ℝ)) (fun _ => 2)
        (equilibrateIterate ⟨true, true, true, 5, 0, 0⟩ (fun _ => 2)
          (fun _ => 2) ⟨fun _ => 1, fun _ => 1, fun _ => 1⟩)).x i =
      (1:ℝ)) ∧
    (∀ i, (unequilibrateIterate (fun _ => (2:ℝ)) (fun _ => 2)
        (equilibrateIterate ⟨true, true, true, 5, 0, 0⟩ (fun _ => 2)
          (fun _ => 2) ⟨fun _ => 1, fun _ => 1, fun _ => 1⟩)).y i =
      (1:ℝ)) ∧
    (∀ i, (unequilibrateIterate (fun _ => (2:ℝ)) (fun _ => 2)
        (equilibrateIterate ⟨true, true, true, 5, 0, 0⟩ (fun _ => 2)
          (fun _ => 2) ⟨fun _ => 1, fun _ => 1, fun _ => 1⟩)).z i =
      (1:ℝ)) :=
  ipf_unequilibrate_inverts_equilibrate ⟨true, true, true, 5, 0, 0⟩
    (fun _ => 2) (fun _ => 2) ⟨fun _ => 1, fun _ => 1, fun _ => 1⟩
    rfl rfl (fun _ => by norm_num) (fun _ => by norm_num)

open El.lp.direct in
/-- C3: with the iterate inside the cone, the loop body breaks as
converged exactly when `relError = max(objConv, rbConv, rcConv)` is at
most `ctrl.targetTol`, where the three quantities are the relative
objective gap, `||Ax-b||_2/(1+||b||_2)` and `||A^T y-z+c||_2/(1+||c||_2)`;
and when the iteration count equals `ctrl.maxIts` while
`relError > ctrl.minTol`, the body raises the fatal budget error. -/
theorem ipf_convergence_test (ctrl : IPFCtrl) (m n : ℕ) (A : ℕ → ℕ → ℝ)
    (b c : ℕ → ℝ)
    (solveDir : ℕ → Iterate → Option ((ℕ → ℝ) × (ℕ → ℝ) × (ℕ → ℝ)))
    (lineSearch : ℕ → Iterate → ((ℕ → ℝ) × (ℕ → ℝ) × (ℕ → ℝ)) → ℝ)
    (numIts : ℕ) (s : Iterate)
    (hpos : ∀ i, i < n → 0 < s.x i ∧ 0 < s.z i) :
    (relError m n A b c s =
      max (max (|dotk n c s.x - -dotk m b s.y| / (1 + |dotk n c s.x|))
          (nrm2 m (fun i => (∑ j ∈ Finset.range n, A i j * s.x j) - b i) /
            (1 + nrm2 m b)))
        (nrm2 n (fun j => (∑ i ∈ Finset.range m, A i j * s.y i) - s.z j + c j) /
          (1 + nrm2 n c))) ∧
    (relError m n A b c s ≤ ctrl.targetTol →
      ipfStep ctrl m n A b c solveDir lineSearch numIts s =
        .convergedBreak s) ∧
    (relError m n A b c s > ctrl.targetTol → numIts = ctrl.maxIts →
      relError m n A b c s > ctrl.minTol →
      ipfStep ctrl m n A b c solveDir lineSearch numIts s = .fatalBudget) := by
  have hg := ipfStep_guard_passes hpos
  refine ⟨?_, fun hconv => ?_, fun hne hmax hmin => ?_⟩
  · have hrb : rbVec n A b s.x =
        fun i => (∑ j ∈ Finset.range n, A i j * s.x j) - b i := by
      funext i
      simp only [rbVec]
      ring
    have hrc : rcVec m A c s.y s.z =
        fun j => (∑ i ∈ Finset.range m, A i j * s.y i) - s.z j + c j := by
      funext j
      simp only [rcVec]
      ring
    rw [relError, rbConv, rcConv, objConv, hrb, hrc]
  · simp only [ipfStep]
    rw [if_neg hg, if_pos hconv]
  · simp only [ipfStep]
    rw [if_neg hg, if_neg (not_le.mpr hne), if_pos ⟨hmax, hmin⟩]

open El.lp.direct in
/-- Witness for C3 with the 1x1 data `A = (1)`, `b = c = (1)` and iterate
`x = z = (1)`, `y = (-1)`: `relError = 1/2`, so with `targetTol = 1/2`
the body reports convergence. -/
theorem ipf_convergence_test_witness :
    ipfStep ⟨false, false, false, 5, 1/2, 1/4⟩ 1 1 (fun _ _ => 1)
        (fun _ => 1) (fun _ => 1) (fun _ _ => none) (fun _ _ _ => 1) 0
        ⟨fun _ => 1, fun _ => -1, fun _ => 1⟩ =
      .convergedBreak ⟨fun _ => 1, fun _ => -1, fun _ => 1⟩ := by
  have hpos : ∀ i, i < 1 →
      (0:ℝ) < (⟨fun _ => 1, fun _ => -1, fun _ => 1⟩ : Iterate).x i ∧
      (0:ℝ) < (⟨fun _ => 1, fun _ => -1, fun _ => 1⟩ : Iterate).z i :=
    fun i _ => ⟨by norm_num, by norm_num⟩
  have h := ipf_convergence_test ⟨false, false, false, 5, 1/2, 1/4⟩ 1 1
    (fun _ _ => 1) (fun _ => 1) (fun _ => 1) (fun _ _ => none)
    (fun _ _ _ => 1) 0 ⟨fun _ => 1, fun _ => -1, fun _ => 1⟩ hpos
  refine h.2.1 ?_
  simp only [relError, objConv, rbConv, rcConv, rbVec, rcVec, dotk, nrm2,
    Finset.sum_range_one]
  norm_num [Real.sqrt_one, Real.sqrt_zero]

open El.lp.direct in
/-- C4: if `x` or `z` has a nonpositive entry, the loop body raises the
fatal cone error before any other work; conversely, when the body does
not raise it, every entry of `x` and `z` visible at iteration entry is
strictly positive. -/
theorem ipf_cone_guard (ctrl : IPFCtrl) (m n : ℕ) (A : ℕ → ℕ → ℝ)
    (b c : ℕ → ℝ)
    (solveDir : ℕ → Iterate → Option ((ℕ → ℝ) × (ℕ → ℝ) × (ℕ → ℝ)))
    (lineSearch : ℕ → Iterate → ((ℕ → ℝ) × (ℕ → ℝ) × (ℕ → ℝ)) → ℝ)
    (numIts : ℕ) (s : Iterate) :
    (((∃ i, i < n ∧ s.x i ≤ 0) ∨ (∃ i, i < n ∧ s.z i ≤ 0)) →
      ipfStep ctrl m n A b c solveDir lineSearch numIts s =
        .fatalCone (numNonPositive n s.x) (numNonPositive n s.z)) ∧
    ((∀ a bb, ipfStep ctrl m n A b c solveDir lineSearch numIts s ≠
        .fatalCone a bb) →
      ∀ i, i < n → 0 < s.x i ∧ 0 < s.z i) := by
  constructor
  · intro hbad
    have hguard : 0 < numNonPositive n s.x ∨ 0 < numNonPositive n s.z := by
      rcases hbad with h | h
      · exact Or.inl ((numNonPositive_pos_iff n s.x).mpr h)
      · exact Or.inr ((numNonPositive_pos_iff n s.z).mpr h)
    simp only [ipfStep]
    rw [if_pos hguard]
  · intro hok i hi
    by_contra hcon
    push_neg at hcon
    have hbad : 0 < numNonPositive n s.x ∨ 0 < numNonPositive n s.z := by
      by_cases hx : 0 < s.x i
      · exact Or.inr ((numNonPositive_pos_iff n s.z).mpr
          ⟨i, hi, hcon hx⟩)
      · exact Or.inl ((numNonPositive_pos_iff n s.x).mpr
          ⟨i, hi, not_lt.mp hx⟩)
    refine hok (numNonPositive n s.x) (numNonPositive n s.z) ?_
    simp only [ipfStep]
    rw [if_pos hbad]

open El.lp.direct in
/-- Witness for C4: with `x = (-1)` the body reports the cone error. -/
theorem ipf_cone_guard_witness :
    ipfStep ⟨false, false, false, 5, 1/2, 1/4⟩ 1 1 (fun _ _ => 1)
        (fun _ => 1) (fun _ => 1) (fun _ _ => none) (fun _ _ _ => 1) 0
        ⟨fun _ => -1, fun _ => 1, fun _ => 1⟩ =
      .fatalCone
        (numNonPositive 1 (fun _ => (-1:ℝ)))
        (numNonPositive 1 (fun _ => (1:ℝ))) :=
  (ipf_cone_guard ⟨false, false, false, 5, 1/2, 1/4⟩ 1 1 (fun _ _ => 1)
      (fun _ => 1) (fun _ => 1) (fun _ _ => none) (fun _ _ _ => 1) 0
      ⟨fun _ => -1, fun _ => 1, fun _ => 1⟩).1
    (Or.inl ⟨0, by norm_num, by norm_num⟩)

open El.lp.direct in
/-- C5: when the KKT factorization/solve throws (the solve oracle returns
`none`) in an iteration that passed the cone guard, did not converge and
did not exhaust the budget, the body breaks out with the iterate exactly
as it was at iteration entry if `relError ≤ ctrl.minTol`, and raises the
fatal tolerance error otherwise. -/
theorem ipf_solve_failure (ctrl : IPFCtrl) (m n : ℕ) (A : ℕ → ℕ → ℝ)
    (b c : ℕ → ℝ)
    (solveDir : ℕ → Iterate → Option ((ℕ → ℝ) × (ℕ → ℝ) × (ℕ → ℝ)))
    (lineSearch : ℕ → Iterate → ((ℕ → ℝ) × (ℕ → ℝ) × (ℕ → ℝ)) → ℝ)
    (numIts : ℕ) (s : Iterate)
    (hpos : ∀ i, i < n → 0 < s.x i ∧ 0 < s.z i)
    (hsolve : solveDir numIts s = none)
    (hnc : ¬ relError m n A b c s ≤ ctrl.targetTol)
    (hnb : ¬ (numIts = ctrl.maxIts ∧ relError m n A b c s > ctrl.minTol)) :
    (relError m n A b c s ≤ ctrl.minTol →
      ipfStep ctrl m n A b c solveDir lineSearch numIts s = .softBreak s) ∧
    (relError m n A b c s > ctrl.minTol →
      ipfStep ctrl m n A b c solveDir lineSearch numIts s = .fatalTol) := by
  have hg := ipfStep_guard_passes hpos
  constructor
  · intro hsoft
    simp only [ipfStep]
    rw [if_neg hg, if_neg hnc, if_neg hnb, hsolve]
    simp only [if_pos hsoft]
  · intro hhard
    simp only [ipfStep]
    rw [if_neg hg, if_neg hnc, if_neg hnb, hsolve]
    simp only [if_neg (not_le.mpr hhard)]

open El.lp.direct in
/-- Witness for C5: 1x1 data with `relError = 1/2`, a throwing solve,
`targetTol = 1/4` and `minTol = 1`, so the body soft-breaks with the
entry iterate. -/
theorem ipf_solve_failure_witness :
    ipfStep ⟨false, false, false, 5, 1/4, 1⟩ 1 1 (fun _ _ => 1)
        (fun _ => 1) (fun _ => 1) (fun _ _ => none) (fun _ _ _ => 1) 0
        ⟨fun _ => 1, fun _ => -1, fun _ => 1⟩ =
      .softBreak ⟨fun _ => 1, fun _ => -1, fun _ => 1⟩ := by
  have hrel : relError 1 1 (fun _ _ => (1:ℝ)) (fun _ => 1) (fun _ => 1)
      ⟨fun _ => 1, fun _ => -1, fun _ => 1⟩ = 1/2 := by
    simp only [relError, objConv, rbConv, rcConv, rbVec, rcVec, dotk, nrm2,
      Finset.sum_range_one]
    norm_num [Real.sqrt_one, Real.sqrt_zero]
  have h := ipf_solve_failure ⟨false, false, false, 5, 1/4, 1⟩ 1 1
    (fun _ _ => 1) (fun _ => 1) (fun _ => 1) (fun _ _ => none)
    (fun _ _ _ => 1) 0 ⟨fun _ => 1, fun _ => -1, fun _ => 1⟩
    (fun i _ => ⟨by norm_num, by norm_num⟩) rfl
    (by rw [hrel]; norm_num)
    (by rw [hrel]; rintro ⟨-, hgt⟩; norm_num at hgt)
  exact h.1 (by rw [hrel]; norm_num)

open El.lp.direct in
/-- C6: after the `Axpy` updates with a zero line-search step the iterate
is unchanged, and the body then soft-breaks when
`relError ≤ ctrl.minTol` and raises the fatal tolerance error
otherwise. -/
theorem ipf_zero_step (ctrl : IPFCtrl) (m n : ℕ) (A : ℕ → ℕ → ℝ)
    (b c : ℕ → ℝ)
    (solveDir : ℕ → Iterate → Option ((ℕ → ℝ) × (ℕ → ℝ) × (ℕ → ℝ)))
    (lineSearch : ℕ → Iterate → ((ℕ → ℝ) × (ℕ → ℝ) × (ℕ → ℝ)) → ℝ)
    (numIts : ℕ) (s : Iterate)
    (d : (ℕ → ℝ) × (ℕ → ℝ) × (ℕ → ℝ))
    (hpos : ∀ i, i < n → 0 < s.x i ∧ 0 < s.z i)
    (hsolve : solveDir numIts s = some d)
    (halpha : lineSearch numIts s d = 0)
    (hnc : ¬ relError m n A b c s ≤ ctrl.targetTol)
    (hnb : ¬ (numIts = ctrl.maxIts ∧ relError m n A b c s > ctrl.minTol)) :
    (∀ i, axpy (lineSearch numIts s d) d.1 s.x i = s.x i) ∧
    (∀ i, axpy (lineSearch numIts s d) d.2.1 s.y i = s.y i) ∧
    (∀ i, axpy (lineSearch numIts s d) d.2.2 s.z i = s.z i) ∧
    (relError m n A b c s ≤ ctrl.minTol →
      ipfStep ctrl m n A b c solveDir lineSearch numIts s =
        .softBreak ⟨axpy (lineSearch numIts s d) d.1 s.x,
          axpy (lineSearch numIts s d) d.2.1 s.y,
          axpy (lineSearch numIts s d) d.2.2 s.z⟩) ∧
    (relError m n A b c s > ctrl.minTol →
      ipfStep ctrl m n A b c solveDir lineSearch numIts s = .fatalTol) := by
  have hg := ipfStep_guard_passes hpos
  refine ⟨fun i => ?_, fun i => ?_, fun i => ?_, fun hsoft => ?_,
    fun hhard => ?_⟩
  · simp [axpy, halpha]
  · simp [axpy, halpha]
  · simp [axpy, halpha]
  · simp only [ipfStep]
    rw [if_neg hg, if_neg hnc, if_neg hnb, hsolve]
    simp only [if_pos halpha, if_pos hsoft]
  · simp only [ipfStep]
    rw [if_neg hg, if_neg hnc, if_neg hnb, hsolve]
    simp only [if_pos halpha, if_neg (not_le.mpr hhard)]

open El.lp.direct in
/-- Witness for C6: 1x1 data with `relError = 1/2 ≤ minTol = 1`, a
successful solve and a zero line-search step: the body soft-breaks and
the `Axpy` updates leave the iterate unchanged. -/
theorem ipf_zero_step_witness :
    (∀ i, axpy 0 (fun _ => (1:ℝ)) (fun _ => 1) i = 1) ∧
    ipfStep ⟨false, false, false, 5, 1/4, 1⟩ 1 1 (fun _ _ => 1)
        (fun _ => 1) (fun _ => 1)
        (fun _ _ => some (fun _ => 1, fun _ => 1, fun _ => 1))
        (fun _ _ _ => 0) 0 ⟨fun _ => 1, fun _ => -1, fun _ => 1⟩ =
      .softBreak ⟨axpy 0 (fun _ => 1) (fun _ => 1),
        axpy 0 (fun _ => 1) (fun _ => -1),
        axpy 0 (fun _ => 1) (fun _ => 1)⟩ := by
  have hrel : relError 1 1 (fun _ _ => (1:ℝ)) (fun _ => 1) (fun _ => 1)
      ⟨fun _ => 1, fun _ => -1, fun _ => 1⟩ = 1/2 := by
    simp only [relError, objConv, rbConv, rcConv, rbVec, rcVec, dotk, nrm2,
      Finset.sum_range_one]
    norm_num [Real.sqrt_one, Real.sqrt_zero]
  have h := ipf_zero_step ⟨false, false, false, 5, 1/4, 1⟩ 1 1
    (fun _ _ => 1) (fun _ => 1) (fun _ => 1)
    (fun _ _ => some (fun _ => 1, fun _ => 1, fun _ => 1))
    (fun _ _ _ => 0) 0 ⟨fun _ => 1, fun _ => -1, fun _ => 1⟩
    (fun _ => 1, fun _ => 1, fun _ => 1)
    (fun i _ => ⟨by norm_num, by norm_num⟩) rfl rfl
    (by rw [hrel]; norm_num)
    (by rw [hrel]; rintro ⟨-, hgt⟩; norm_num at hgt)
  exact ⟨h.1, h.2.2.2.1 (by rw [hrel]; norm_num)⟩

open El.lp.direct in
/-- C10: when the loop body is entered with the iteration counter equal
to `ctrl.maxIts`, the cone guard passing, and
`targetTol < relError ≤ minTol`, no error is raised: the loop finishes
normally, and if the solve succeeds and the step is nonzero it performs
one final full iteration (applying the step) before the loop condition
`numIts <= maxIts` fails, so the body runs `maxIts + 1` times in total. -/
theorem ipf_budget_final_iteration (ctrl : IPFCtrl) (m n : ℕ)
    (A : ℕ → ℕ → ℝ) (b c : ℕ → ℝ)
    (solveDir : ℕ → Iterate → Option ((ℕ → ℝ) × (ℕ → ℝ) × (ℕ → ℝ)))
    (lineSearch : ℕ → Iterate → ((ℕ → ℝ) × (ℕ → ℝ) × (ℕ → ℝ)) → ℝ)
    (s : Iterate)
    (hpos : ∀ i, i < n → 0 < s.x i ∧ 0 < s.z i)
    (h1 : ctrl.targetTol < relError m n A b c s)
    (h2 : relError m n A b c s ≤ ctrl.minTol) :
    (∃ s2 k, ipfLoop ctrl m n A b c solveDir lineSearch 1 ctrl.maxIts s =
      .done s2 k) ∧
    (∀ d, solveDir ctrl.maxIts s = some d →
      lineSearch ctrl.maxIts s d ≠ 0 →
      ipfLoop ctrl m n A b c solveDir lineSearch 1 ctrl.maxIts s =
        .done ⟨axpy (lineSearch ctrl.maxIts s d) d.1 s.x,
          axpy (lineSearch ctrl.maxIts s d) d.2.1 s.y,
          axpy (lineSearch ctrl.maxIts s d) d.2.2 s.z⟩ .budgetExhausted) := by
  have hg := ipfStep_guard_passes hpos
  have hnc : ¬ relError m n A b c s ≤ ctrl.targetTol := not_le.mpr h1
  have hnb : ¬ (True ∧ relError m n A b c s > ctrl.minTol) := by
    rintro ⟨-, hgt⟩
    exact absurd hgt (not_lt.mpr h2)
  constructor
  · cases hsd : solveDir ctrl.maxIts s with
    | none =>
        have hstep : ipfStep ctrl m n A b c solveDir lineSearch
            ctrl.maxIts s = .softBreak s := by
          simp only [ipfStep]
          rw [if_neg hg, if_neg hnc, if_neg hnb, hsd]
          simp only [if_pos h2]
        refine ⟨s, .softExit, ?_⟩
        show ipfLoop ctrl m n A b c solveDir lineSearch (0 + 1)
          ctrl.maxIts s = _
        rw [ipfLoop, hstep]
    | some d =>
        by_cases ha : lineSearch ctrl.maxIts s d = 0
        · have hstep : ipfStep ctrl m n A b c solveDir lineSearch
              ctrl.maxIts s =
              .softBreak ⟨axpy (lineSearch ctrl.maxIts s d) d.1 s.x,
                axpy (lineSearch ctrl.maxIts s d) d.2.1 s.y,
                axpy (lineSearch ctrl.maxIts s d) d.2.2 s.z⟩ := by
            simp only [ipfStep]
            rw [if_neg hg, if_neg hnc, if_neg hnb, hsd]
            simp only [if_pos ha, if_pos h2]
          refine ⟨⟨axpy (lineSearch ctrl.maxIts s d) d.1 s.x,
            axpy (lineSearch ctrl.maxIts s d) d.2.1 s.y,
            axpy (lineSearch ctrl.maxIts s d) d.2.2 s.z⟩, .softExit, ?_⟩
          show ipfLoop ctrl m n A b c solveDir lineSearch (0 + 1)
            ctrl.maxIts s = _
          rw [ipfLoop, hstep]
        · have hstep : ipfStep ctrl m n A b c solveDir lineSearch
              ctrl.maxIts s =
              .next ⟨axpy (lineSearch ctrl.maxIts s d) d.1 s.x,
                axpy (lineSearch ctrl.maxIts s d) d.2.1 s.y,
                axpy (lineSearch ctrl.maxIts s d) d.2.2 s.z⟩ := by
            simp only [ipfStep]
            rw [if_neg hg, if_neg hnc, if_neg hnb, hsd]
            simp only [if_neg ha]
          refine ⟨⟨axpy (lineSearch ctrl.maxIts s d) d.1 s.x,
            axpy (lineSearch ctrl.maxIts s d) d.2.1 s.y,
            axpy (lineSearch ctrl.maxIts s d) d.2.2 s.z⟩, .budgetExhausted, ?_⟩
          show ipfLoop ctrl m n A b c solveDir lineSearch (0 + 1)
            ctrl.maxIts s = _
          rw [ipfLoop, hstep]
          rfl
  · intro d hsd ha
    have hstep : ipfStep ctrl m n A b c solveDir lineSearch
        ctrl.maxIts s =
        .next ⟨axpy (lineSearch ctrl.maxIts s d) d.1 s.x,
          axpy (lineSearch ctrl.maxIts s d) d.2.1 s.y,
          axpy (lineSearch ctrl.maxIts s d) d.2.2 s.z⟩ := by
      simp only [ipfStep]
      rw [if_neg hg, if_neg hnc, if_neg hnb, hsd]
      simp only [if_neg ha]
    show ipfLoop ctrl m n A b c solveDir lineSearch (0 + 1)
      ctrl.maxIts s = _
    rw [ipfLoop, hstep]
    rfl

open El.lp.direct in
/-- Witness for C10: 1x1 data with `relError = 1/2`, `targetTol = 1/4`,
`minTol = 1`, `maxIts = 0`: entering the body at `numIts = maxIts = 0`
with a successful unit solve and step `alpha = 1` performs the final
iteration and the loop returns normally. -/
theorem ipf_budget_final_iteration_witness :
    ipfLoop ⟨false, false, false, 0, 1/4, 1⟩ 1 1 (fun _ _ => 1)
        (fun _ => 1) (fun _ => 1)
        (fun _ _ => some (fun _ => 1, fun _ => 1, fun _ => 1))
        (fun _ _ _ => 1) 1 0 ⟨fun _ => 1, fun _ => -1, fun _ => 1⟩ =
      .done ⟨axpy 1 (fun _ => 1) (fun _ => 1),
        axpy 1 (fun _ => 1) (fun _ => -1),
        axpy 1 (fun _ => 1) (fun _ => 1)⟩ .budgetExhausted := by
  have hrel : relError 1 1 (fun _ _ => (1:ℝ)) (fun _ => 1) (fun _ => 1)
      ⟨fun _ => 1, fun _ => -1, fun _ => 1⟩ = 1/2 := by
    simp only [relError, objConv, rbConv, rcConv, rbVec, rcVec, dotk, nrm2,
      Finset.sum_range_one]
    norm_num [Real.sqrt_one, Real.sqrt_zero]
  have h := ipf_budget_final_iteration ⟨false, false, false, 0, 1/4, 1⟩ 1 1
    (fun _ _ => 1) (fun _ => 1) (fun _ => 1)
    (fun _ _ => some (fun _ => 1, fun _ => 1, fun _ => 1))
    (fun _ _ _ => 1) ⟨fun _ => 1, fun _ => -1, fun _ => 1⟩
    (fun i _ => ⟨by norm_num, by norm_num⟩)
    (by rw [hrel]; norm_num) (by rw [hrel]; norm_num)
  exact h.2 (fun _ => 1, fun _ => 1, fun _ => 1) rfl (by norm_num)

open El.lp.direct in
/-- C7: in both sparse IPF regimes, the in-loop `NestedDissection` guard
holds exactly on the first iteration, unconditionally for `FULL_KKT` and
`NORMAL_KKT` and only when both `ctrl.primalInit` and `ctrl.dualInit`
hold for `AUGMENTED_KKT`; in particular, with `AUGMENTED_KKT` and either
flag unset the loop never recomputes the symbolic factorization. -/
theorem sparse_nd_gate_first_iteration (sys : KKTSystem) (p d : Bool)
    (its : ℕ) :
    (sparseNDGate sys p d its = true ↔
      its = 0 ∧ (sys = KKTSystem.AUGMENTED_KKT → p = true ∧ d = true)) ∧
    distSparseNDGate sys p d its = sparseNDGate sys p d its := by
  cases sys <;> cases p <;> cases d <;>
    simp [sparseNDGate, distSparseNDGate, and_comm]

namespace elem

namespace mshs

lemma computeGivens_annihilates (f g : ℝ) :
    -(computeGivens f g).2 * f + (computeGivens f g).1 * g = 0 := by
  unfold computeGivens
  split_ifs with h
  · simp [h.1, h.2]
  · simp only
    ring

lemma lnW_zero (H : ℕ → ℕ → ℝ) (mu : ℝ) (i : ℕ) :
    lnW H mu 0 i = Msh H mu i 0 := rfl

lemma lnW_succ (H : ℕ → ℕ → ℝ) (mu : ℝ) (k i : ℕ) :
    lnW H mu (k + 1) i =
      -(lnCS H mu k).2 * lnW H mu k i +
        (lnCS H mu k).1 * Msh H mu i (k + 1) := rfl

lemma lnXf_zero (H : ℕ → ℕ → ℝ) (mu alpha : ℝ) (b : ℕ → ℝ) (i : ℕ) :
    lnXf H mu alpha b 0 i = alpha * b i := rfl

lemma lnXf_succ (H : ℕ → ℕ → ℝ) (mu alpha : ℝ) (b : ℕ → ℝ) (k i : ℕ) :
    lnXf H mu alpha b (k + 1) i =
      if i < k then lnXf H mu alpha b k i
      else if i = k then
        lnXf H mu alpha b k k /
          ((lnCS H mu k).1 * lnW H mu k k + (lnCS H mu k).2 * H k (k + 1))
      else
        lnXf H mu alpha b k i -
          (lnXf H mu alpha b k k /
            ((lnCS H mu k).1 * lnW H mu k k + (lnCS H mu k).2 * H k (k + 1))) *
          ((lnCS H mu k).1 * lnW H mu k i +
            (lnCS H mu k).2 * Msh H mu i (k + 1)) := rfl

lemma lnV_zero (H : ℕ → ℕ → ℝ) (mu alpha : ℝ) (b : ℕ → ℝ) (m i : ℕ) :
    lnV H mu alpha b m 0 i = lnY H mu alpha b m i := rfl

lemma lnV_succ (H : ℕ → ℕ → ℝ) (mu alpha : ℝ) (b : ℕ → ℝ) (m t i : ℕ) :
    lnV H mu alpha b m (t + 1) i =
      if i = m - 2 - t then
        (lnCS H mu (m - 2 - t)).1 * lnV H mu alpha b m t (m - 2 - t) -
          (lnCS H mu (m - 2 - t)).2 * lnV H mu alpha b m t (m - 2 - t + 1)
      else if i = m - 2 - t + 1 then
        (lnCS H mu (m - 2 - t)).2 * lnV H mu alpha b m t (m - 2 - t) +
          (lnCS H mu (m - 2 - t)).1 * lnV H mu alpha b m t (m - 2 - t + 1)
      else lnV H mu alpha b m t i := rfl

/-- Above the diagonal the (virtual) fully-rotated working columns vanish
when `H` is lower Hessenberg: the Givens choice zeroes the entry at row
`l`, and the rows above are zero by the sparsity pattern. -/
lemma lnW_upper_zero (H : ℕ → ℕ → ℝ) (mu : ℝ) (m : ℕ)
    (hH : ∀ i j, i < m → j < m → i + 1 < j → H i j = 0) :
    ∀ l, l < m → ∀ i, i < l → lnW H mu l i = 0 := by
  intro l
  induction l with
  | zero => intro _ i hi; omega
  | succ l ih =>
      intro hlm i hil
      rw [lnW_succ]
      rcases Nat.lt_succ_iff_lt_or_eq.mp hil with hlt | rfl
      · rw [ih (by omega) i hlt]
        have hz : Msh H mu i (l + 1) = 0 := by
          unfold Msh
          rw [if_neg (by omega)]
          exact hH i (l + 1) (by omega) (by omega) (by omega)
        rw [hz]
        ring
      · have hm : Msh H mu i (i + 1) = H i (i + 1) := by
          unfold Msh
          rw [if_neg (by omega)]
        rw [hm]
        exact computeGivens_annihilates (lnW H mu i i) (H i (i + 1))

/-- Strictly upper entries of the triangular factor vanish for lower
Hessenberg `H`. -/
lemma lnL_upper_zero (H : ℕ → ℕ → ℝ) (mu : ℝ) (m : ℕ)
    (hH : ∀ i j, i < m → j < m → i + 1 < j → H i j = 0) :
    ∀ l, l < m → ∀ i, i < l → lnL H mu m i l = 0 := by
  intro l hlm i hil
  unfold lnL
  split_ifs with hend
  · exact lnW_upper_zero H mu m hH l hlm i hil
  · rw [lnW_upper_zero H mu m hH l hlm i hil]
    have hz : Msh H mu i (l + 1) = 0 := by
      unfold Msh
      rw [if_neg (by omega)]
      exact hH i (l + 1) (by omega) (by omega) (by omega)
    rw [hz]
    ring

/-- Forward-sweep invariant: the not-yet-processed entries of the
solution column carry the original right-hand side minus the eliminated
multiples of the factor columns. -/
lemma lnXf_invariant (H : ℕ → ℕ → ℝ) (mu alpha : ℝ) (b : ℕ → ℝ) (m : ℕ) :
    ∀ k, k ≤ m - 1 → ∀ i, k ≤ i →
      lnXf H mu alpha b k i =
        alpha * b i -
          ∑ l ∈ Finset.range k,
            lnY H mu alpha b m l * lnL H mu m i l := by
  intro k
  induction k with
  | zero => intro _ i _; simp [lnXf_zero]
  | succ k ih =>
      intro hkm i hki
      have hklt : k < m - 1 := by omega
      rw [lnXf_succ, if_neg (by omega), if_neg (by omega)]
      have hLkk : lnL H mu m k k =
          (lnCS H mu k).1 * lnW H mu k k + (lnCS H mu k).2 * H k (k + 1) := by
        unfold lnL
        rw [if_neg (by omega)]
        have : Msh H mu k (k + 1) = H k (k + 1) := by
          unfold Msh
          rw [if_neg (by omega)]
        rw [this]
      have hLik : lnL H mu m i k =
          (lnCS H mu k).1 * lnW H mu k i +
            (lnCS H mu k).2 * Msh H mu i (k + 1) := by
        unfold lnL
        rw [if_neg (by omega)]
      have hyk : lnY H mu alpha b m k =
          (alpha * b k -
            ∑ l ∈ Finset.range k, lnY H mu alpha b m l * lnL H mu m k l) /
            ((lnCS H mu k).1 * lnW H mu k k + (lnCS H mu k).2 * H k (k + 1)) := by
        conv_lhs => rw [lnY, hLkk]
        rw [ih (by omega) k (le_refl k)]
      rw [ih (by omega) i (by omega), ih (by omega) k (le_refl k),
        Finset.sum_range_succ, hyk, hLik]
      ring

/-- Two sums over `range mm` agree when the summands agree off a pair of
indices and the pair contributes equally. -/
lemma sum_range_swap_pair {mm p q : ℕ} (hpq : p ≠ q) (hp : p < mm)
    (hq : q < mm) (f g : ℕ → ℝ)
    (hoff : ∀ j, j < mm → j ≠ p → j ≠ q → f j = g j)
    (hpair : f p + f q = g p + g q) :
    ∑ j ∈ Finset.range mm, f j = ∑ j ∈ Finset.range mm, g j := by
  classical
  have hpmem : p ∈ Finset.range mm := Finset.mem_range.mpr hp
  have hqmem : q ∈ (Finset.range mm).erase p :=
    Finset.mem_erase.mpr ⟨hpq.symm, Finset.mem_range.mpr hq⟩
  rw [← Finset.add_sum_erase _ f hpmem, ← Finset.add_sum_erase _ f hqmem,
    ← Finset.add_sum_erase _ g hpmem, ← Finset.add_sum_erase _ g hqmem]
  have hsum : ∑ j ∈ ((Finset.range mm).erase p).erase q, f j =
      ∑ j ∈ ((Finset.range mm).erase p).erase q, g j := by
    refine Finset.sum_congr rfl (fun j hj => ?_)
    rw [Finset.mem_erase, Finset.mem_erase, Finset.mem_range] at hj
    exact hoff j hj.2.2 hj.2.1 hj.1
  rw [hsum]
  linarith [hpair]

/-- Row equations of the forward sweep: the stored quotients solve the
triangular system `L y = alpha b` row by row. -/
lemma lnL_row (H : ℕ → ℕ → ℝ) (mu alpha : ℝ) (b : ℕ → ℝ) (m : ℕ)
    (hH : ∀ i j, i < m → j < m → i + 1 < j → H i j = 0)
    (hpiv : ∀ k, k < m → lnL H mu m k k ≠ 0) :
    ∀ k, k < m →
      ∑ l ∈ Finset.range m, lnL H mu m k l * lnY H mu alpha b m l =
        alpha * b k := by
  intro k hk
  have hinv := lnXf_invariant H mu alpha b m k (by omega) k (le_refl k)
  have hyk : lnY H mu alpha b m k * lnL H mu m k k =
      lnXf H mu alpha b k k := by
    unfold lnY
    exact div_mul_cancel₀ _ (hpiv k hk)
  have hstep : ∑ l ∈ Finset.range (k + 1),
      lnL H mu m k l * lnY H mu alpha b m l = alpha * b k := by
    rw [Finset.sum_range_succ]
    have hc : ∀ l ∈ Finset.range k,
        lnL H mu m k l * lnY H mu alpha b m l =
          lnY H mu alpha b m l * lnL H mu m k l :=
      fun l _ => mul_comm _ _
    rw [Finset.sum_congr rfl hc,
      mul_comm (lnL H mu m k k) (lnY H mu alpha b m k), hyk, hinv]
    ring
  rw [← hstep]
  symm
  refine Finset.sum_subset (Finset.range_subset.mpr (by omega)) ?_
  intro l hlm hlk
  rw [Finset.mem_range] at hlm
  rw [Finset.mem_range, not_lt] at hlk
  rw [lnL_upper_zero H mu m hH l hlm k (by omega)]
  ring

/-- Backward-sweep invariant: applying a stored rotation to the solution
vector while un-rotating the matrix columns preserves the row sums. -/
lemma lnN_lnV_invariant (H : ℕ → ℕ → ℝ) (mu alpha : ℝ) (b : ℕ → ℝ)
    (m : ℕ) :
    ∀ t, t ≤ m - 1 → ∀ i,
      ∑ j ∈ Finset.range m,
        lnN H mu m (m - 1 - t) i j * lnV H mu alpha b m t j =
      ∑ j ∈ Finset.range m,
        lnL H mu m i j * lnY H mu alpha b m j := by
  intro t
  induction t with
  | zero =>
      intro _ i
      refine Finset.sum_congr rfl (fun j hj => ?_)
      rw [Finset.mem_range] at hj
      rw [lnV_zero]
      rcases Nat.lt_or_ge j (m - 1) with hjlt | hjge
      · unfold lnN
        rw [if_pos (by omega)]
      · have hj1 : j = m - 1 := by omega
        subst hj1
        unfold lnN lnL
        rw [if_neg (by omega), if_pos (by omega), if_pos rfl,
          Nat.sub_zero]
  | succ t ih =>
      intro ht i
      have hK : m - 1 - (t + 1) = m - 2 - t := by omega
      rw [hK]
      have hswap : ∑ j ∈ Finset.range m,
          lnN H mu m (m - 2 - t) i j * lnV H mu alpha b m (t + 1) j =
          ∑ j ∈ Finset.range m,
            lnN H mu m (m - 1 - t) i j * lnV H mu alpha b m t j := by
        refine sum_range_swap_pair (p := m - 2 - t) (q := m - 2 - t + 1)
          (by omega) (by omega) (by omega) _ _ ?_ ?_
        · intro j hj hjp hjq
          have hval : lnV H mu alpha b m (t + 1) j =
              lnV H mu alpha b m t j := by
            rw [lnV_succ, if_neg hjp, if_neg hjq]
          rw [hval]
          rcases Nat.lt_or_ge j (m - 2 - t) with hlt | hge
          · have e1 : lnN H mu m (m - 2 - t) i j = lnL H mu m i j := by
              unfold lnN
              rw [if_pos hlt]
            have e2 : lnN H mu m (m - 1 - t) i j = lnL H mu m i j := by
              unfold lnN
              rw [if_pos (by omega)]
            rw [e1, e2]
          · have e1 : lnN H mu m (m - 2 - t) i j = Msh H mu i j := by
              unfold lnN
              rw [if_neg (by omega), if_neg (by omega)]
            have e2 : lnN H mu m (m - 1 - t) i j = Msh H mu i j := by
              unfold lnN
              rw [if_neg (by omega), if_neg (by omega)]
            rw [e1, e2]
        · have hv1 : lnV H mu alpha b m (t + 1) (m - 2 - t) =
              (lnCS H mu (m - 2 - t)).1 * lnV H mu alpha b m t (m - 2 - t) -
              (lnCS H mu (m - 2 - t)).2 *
                lnV H mu alpha b m t (m - 2 - t + 1) := by
            rw [lnV_succ, if_pos rfl]
          have hv2 : lnV H mu alpha b m (t + 1) (m - 2 - t + 1) =
              (lnCS H mu (m - 2 - t)).2 * lnV H mu alpha b m t (m - 2 - t) +
              (lnCS H mu (m - 2 - t)).1 *
                lnV H mu alpha b m t (m - 2 - t + 1) := by
            rw [lnV_succ, if_neg (by omega), if_pos rfl]
          have hNa : lnN H mu m (m - 2 - t) i (m - 2 - t) =
              lnW H mu (m - 2 - t) i := by
            unfold lnN
            rw [if_neg (by omega), if_pos rfl]
          have hNb : lnN H mu m (m - 2 - t) i (m - 2 - t + 1) =
              Msh H mu i (m - 2 - t + 1) := by
            unfold lnN
            rw [if_neg (by omega), if_neg (by omega)]
          have hNc : lnN H mu m (m - 1 - t) i (m - 2 - t) =
              (lnCS H mu (m - 2 - t)).1 * lnW H mu (m - 2 - t) i +
              (lnCS H mu (m - 2 - t)).2 * Msh H mu i (m - 2 - t + 1) := by
            unfold lnN lnL
            rw [if_pos (by omega), if_neg (by omega)]
          have hNd : lnN H mu m (m - 1 - t) i (m - 2 - t + 1) =
              -(lnCS H mu (m - 2 - t)).2 * lnW H mu (m - 2 - t) i +
              (lnCS H mu (m - 2 - t)).1 * Msh H mu i (m - 2 - t + 1) := by
            unfold lnN
            rw [if_neg (by omega), if_pos (by omega), ← lnW_succ]
            have : m - 2 - t + 1 = m - 1 - t := by omega
            rw [this]
          rw [hv1, hv2, hNa, hNb, hNc, hNd]
          ring
      rw [hswap]
      exact ih (by omega) i

/-- Single-column correctness of `mshs::LN` over the reals: for a lower
Hessenberg `H` with nonzero pivots, the output solves
`(H - mu I) x = alpha b`. -/
lemma lnSolve_correct (H : ℕ → ℕ → ℝ) (mu alpha : ℝ) (b : ℕ → ℝ) (m : ℕ)
    (hH : ∀ i j, i < m → j < m → i + 1 < j → H i j = 0)
    (hpiv : ∀ k, k < m → lnL H mu m k k ≠ 0) :
    ∀ i, i < m →
      ∑ j ∈ Finset.range m, Msh H mu i j * lnSolve H mu alpha b m j =
        alpha * b i := by
  intro i hi
  have hm : m ≠ 0 := by omega
  unfold lnSolve
  rw [if_neg hm]
  have hcongr : ∑ j ∈ Finset.range m,
      Msh H mu i j * lnV H mu alpha b m (m - 1) j =
      ∑ j ∈ Finset.range m,
        lnN H mu m 0 i j * lnV H mu alpha b m (m - 1) j := by
    refine Finset.sum_congr rfl (fun j hj => ?_)
    rcases Nat.eq_zero_or_pos j with rfl | hjpos
    · unfold lnN
      rw [if_neg (by omega), if_pos rfl, lnW_zero]
    · unfold lnN
      rw [if_neg (by omega), if_neg (by omega)]
  rw [hcongr]
  have hzero : m - 1 - (m - 1) = 0 := by omega
  have hinv := lnN_lnV_invariant H mu alpha b m (m - 1) (le_refl (m - 1)) i
  rw [hzero] at hinv
  rw [hinv]
  exact lnL_row H mu alpha b m hH hpiv i hi

lemma unW_zero (H : ℕ → ℕ → ℝ) (mu : ℝ) (m i : ℕ) :
    unW H mu m 0 i = Msh H mu i (m - 1) := rfl

lemma unW_succ (H : ℕ → ℕ → ℝ) (mu : ℝ) (m t i : ℕ) :
    unW H mu m (t + 1) i =
      -(unCS H mu m t).2 * unW H mu m t i +
        (unCS H mu m t).1 * Msh H mu i (m - 1 - t - 1) := rfl

lemma unXf_zero (H : ℕ → ℕ → ℝ) (mu alpha : ℝ) (b : ℕ → ℝ) (m i : ℕ) :
    unXf H mu alpha b m 0 i = alpha * b i := rfl

lemma unXf_succ (H : ℕ → ℕ → ℝ) (mu alpha : ℝ) (b : ℕ → ℝ) (m t i : ℕ) :
    unXf H mu alpha b m (t + 1) i =
      if m - 1 - t < i then unXf H mu alpha b m t i
      else if i = m - 1 - t then
        unXf H mu alpha b m t (m - 1 - t) /
          ((unCS H mu m t).1 * unW H mu m t (m - 1 - t) +
            (unCS H mu m t).2 * H (m - 1 - t) (m - 1 - t - 1))
      else
        unXf H mu alpha b m t i -
          (unXf H mu alpha b m t (m - 1 - t) /
            ((unCS H mu m t).1 * unW H mu m t (m - 1 - t) +
              (unCS H mu m t).2 * H (m - 1 - t) (m - 1 - t - 1))) *
          ((unCS H mu m t).1 * unW H mu m t i +
            (unCS H mu m t).2 * Msh H mu i (m - 1 - t - 1)) := rfl

lemma unV_zero (H : ℕ → ℕ → ℝ) (mu alpha : ℝ) (b : ℕ → ℝ) (m i : ℕ) :
    unV H mu alpha b m 0 i = unY H mu alpha b m i := rfl

lemma unV_succ (H : ℕ → ℕ → ℝ) (mu alpha : ℝ) (b : ℕ → ℝ) (m s i : ℕ) :
    unV H mu alpha b m (s + 1) i =
      if i = s + 1 then
        (unCS H mu m (m - 1 - (s + 1))).1 * unV H mu alpha b m s (s + 1) -
          (unCS H mu m (m - 1 - (s + 1))).2 * unV H mu alpha b m s s
      else if i = s then
        (unCS H mu m (m - 1 - (s + 1))).2 * unV H mu alpha b m s (s + 1) +
          (unCS H mu m (m - 1 - (s + 1))).1 * unV H mu alpha b m s s
      else unV H mu alpha b m s i := rfl

/-- Below the diagonal the working columns of the `UN` sweep vanish when
`H` is upper Hessenberg. -/
lemma unW_lower_zero (H : ℕ → ℕ → ℝ) (mu : ℝ) (m : ℕ)
    (hH : ∀ i j, i < m → j < m → j + 1 < i → H i j = 0) :
    ∀ t, t ≤ m - 1 → ∀ i, m - 1 - t < i → i < m → unW H mu m t i = 0 := by
  intro t
  induction t with
  | zero => intro _ i hgt him; omega
  | succ t ih =>
      intro ht i hgt him
      rw [unW_succ]
      by_cases hik : i = m - 1 - t
      · subst hik
        have hm : Msh H mu (m - 1 - t) (m - 1 - t - 1) =
            H (m - 1 - t) (m - 1 - t - 1) := by
          unfold Msh
          rw [if_neg (by omega)]
        rw [hm]
        unfold unCS
        exact computeGivens_annihilates (unW H mu m t (m - 1 - t))
          (H (m - 1 - t) (m - 1 - t - 1))
      · rw [ih (by omega) i (by omega) him]
        have hz : Msh H mu i (m - 1 - t - 1) = 0 := by
          unfold Msh
          rw [if_neg (by omega)]
          exact hH i (m - 1 - t - 1) him (by omega) (by omega)
        rw [hz]
        ring

/-- Strictly lower entries of the `UN` triangular factor vanish for
upper Hessenberg `H`. -/
lemma unR_lower_zero (H : ℕ → ℕ → ℝ) (mu : ℝ) (m : ℕ)
    (hH : ∀ i j, i < m → j < m → j + 1 < i → H i j = 0) :
    ∀ l, l < m → ∀ i, l < i → i < m → unR H mu m i l = 0 := by
  intro l hlm i hli him
  unfold unR
  split_ifs with h0
  · subst h0
    exact unW_lower_zero H mu m hH (m - 1) (le_refl (m - 1)) i
      (by omega) him
  · rw [unW_lower_zero H mu m hH (m - 1 - l) (by omega) i (by omega) him]
    have hz : Msh H mu i (l - 1) = 0 := by
      unfold Msh
      rw [if_neg (by omega)]
      exact hH i (l - 1) him (by omega) (by omega)
    rw [hz]
    ring

/-- Forward-sweep invariant of `UN` (bottom-up elimination). -/
lemma unXf_invariant (H : ℕ → ℕ → ℝ) (mu alpha : ℝ) (b : ℕ → ℝ) (m : ℕ) :
    ∀ t, t ≤ m - 1 → ∀ i, i ≤ m - 1 - t →
      unXf H mu alpha b m t i =
        alpha * b i -
          ∑ l ∈ Finset.Ico (m - t) m,
            unY H mu alpha b m l * unR H mu m i l := by
  intro t
  induction t with
  | zero => intro _ i _; simp [unXf_zero]
  | succ t ih =>
      intro ht i hi
      have e : m - 1 - (m - 1 - t) = t := by omega
      rw [unXf_succ, if_neg (by omega), if_neg (by omega)]
      have hRkk : unR H mu m (m - 1 - t) (m - 1 - t) =
          (unCS H mu m t).1 * unW H mu m t (m - 1 - t) +
            (unCS H mu m t).2 * H (m - 1 - t) (m - 1 - t - 1) := by
        unfold unR
        rw [if_neg (by omega), e]
        have hm : Msh H mu (m - 1 - t) (m - 1 - t - 1) =
            H (m - 1 - t) (m - 1 - t - 1) := by
          unfold Msh
          rw [if_neg (by omega)]
        rw [hm]
      have hRik : unR H mu m i (m - 1 - t) =
          (unCS H mu m t).1 * unW H mu m t i +
            (unCS H mu m t).2 * Msh H mu i (m - 1 - t - 1) := by
        unfold unR
        rw [if_neg (by omega), e]
      have hyk : unY H mu alpha b m (m - 1 - t) =
          unXf H mu alpha b m t (m - 1 - t) /
            ((unCS H mu m t).1 * unW H mu m t (m - 1 - t) +
              (unCS H mu m t).2 * H (m - 1 - t) (m - 1 - t - 1)) := by
        unfold unY
        rw [e, hRkk]
      rw [show m - (t + 1) = m - t - 1 from by omega,
        Finset.sum_eq_sum_Ico_succ_bot (by omega : m - t - 1 < m),
        show m - t - 1 + 1 = m - t from by omega,
        show m - t - 1 = m - 1 - t from by omega,
        ih (by omega) i (by omega), hyk, hRik]
      ring

/-- Row equations of the `UN` sweep: the stored quotients solve
`R y = alpha b` row by row. -/
lemma unR_row (H : ℕ → ℕ → ℝ) (mu alpha : ℝ) (b : ℕ → ℝ) (m : ℕ)
    (hH : ∀ i j, i < m → j < m → j + 1 < i → H i j = 0)
    (hpiv : ∀ k, k < m → unR H mu m k k ≠ 0) :
    ∀ k, k < m →
      ∑ l ∈ Finset.range m, unR H mu m k l * unY H mu alpha b m l =
        alpha * b k := by
  intro k hk
  have hinv := unXf_invariant H mu alpha b m (m - 1 - k) (by omega) k
    (by omega)
  rw [show m - (m - 1 - k) = k + 1 from by omega] at hinv
  have hyk : unY H mu alpha b m k * unR H mu m k k =
      unXf H mu alpha b m (m - 1 - k) k := by
    unfold unY
    exact div_mul_cancel₀ _ (hpiv k hk)
  have hzero : ∑ l ∈ Finset.Ico 0 k,
      unR H mu m k l * unY H mu alpha b m l = 0 := by
    refine Finset.sum_eq_zero (fun l hl => ?_)
    rw [Finset.mem_Ico] at hl
    rw [unR_lower_zero H mu m hH l (by omega) k hl.2 hk]
    ring
  have hcomm : ∑ l ∈ Finset.Ico (k + 1) m,
      unR H mu m k l * unY H mu alpha b m l =
      ∑ l ∈ Finset.Ico (k + 1) m,
        unY H mu alpha b m l * unR H mu m k l :=
    Finset.sum_congr rfl (fun l _ => mul_comm _ _)
  rw [Finset.range_eq_Ico,
    ← Finset.sum_Ico_consecutive _ (Nat.zero_le k) (le_of_lt hk), hzero,
    Finset.sum_eq_sum_Ico_succ_bot hk, hcomm,
    mul_comm (unR H mu m k k) (unY H mu alpha b m k), hyk]
  linarith [hinv]

/-- Backward-sweep invariant of `UN`. -/
lemma unN_unV_invariant (H : ℕ → ℕ → ℝ) (mu alpha : ℝ) (b : ℕ → ℝ)
    (m : ℕ) :
    ∀ s, s ≤ m - 1 → ∀ i,
      ∑ j ∈ Finset.range m,
        unN H mu m s i j * unV H mu alpha b m s j =
      ∑ j ∈ Finset.range m,
        unR H mu m i j * unY H mu alpha b m j := by
  intro s
  induction s with
  | zero =>
      intro _ i
      refine Finset.sum_congr rfl (fun j hj => ?_)
      rw [Finset.mem_range] at hj
      rw [unV_zero]
      rcases Nat.eq_zero_or_pos j with rfl | hjpos
      · unfold unN unR
        rw [if_neg (by omega), if_pos rfl, if_pos rfl, Nat.sub_zero]
      · unfold unN unR
        rw [if_pos hjpos, if_neg (by omega)]
  | succ s ih =>
      intro hs i
      have hswap : ∑ j ∈ Finset.range m,
          unN H mu m (s + 1) i j * unV H mu alpha b m (s + 1) j =
          ∑ j ∈ Finset.range m,
            unN H mu m s i j * unV H mu alpha b m s j := by
        refine sum_range_swap_pair (p := s + 1) (q := s)
          (by omega) (by omega) (by omega) _ _ ?_ ?_
        · intro j hj hjp hjq
          have hval : unV H mu alpha b m (s + 1) j =
              unV H mu alpha b m s j := by
            rw [unV_succ, if_neg hjp, if_neg hjq]
          rw [hval]
          rcases Nat.lt_or_ge j s with hlt | hge
          · have e1 : unN H mu m (s + 1) i j = Msh H mu i j := by
              unfold unN
              rw [if_neg (by omega), if_neg (by omega)]
            have e2 : unN H mu m s i j = Msh H mu i j := by
              unfold unN
              rw [if_neg (by omega), if_neg (by omega)]
            rw [e1, e2]
          · have hgt : s + 1 < j := by omega
            have e1 : unN H mu m (s + 1) i j = unR H mu m i j := by
              unfold unN
              rw [if_pos hgt]
            have e2 : unN H mu m s i j = unR H mu m i j := by
              unfold unN
              rw [if_pos (by omega)]
            rw [e1, e2]
        · have hv1 : unV H mu alpha b m (s + 1) (s + 1) =
              (unCS H mu m (m - 1 - (s + 1))).1 *
                unV H mu alpha b m s (s + 1) -
              (unCS H mu m (m - 1 - (s + 1))).2 *
                unV H mu alpha b m s s := by
            rw [unV_succ, if_pos rfl]
          have hv2 : unV H mu alpha b m (s + 1) s =
              (unCS H mu m (m - 1 - (s + 1))).2 *
                unV H mu alpha b m s (s + 1) +
              (unCS H mu m (m - 1 - (s + 1))).1 *
                unV H mu alpha b m s s := by
            rw [unV_succ, if_neg (by omega), if_pos rfl]
          have hNa : unN H mu m (s + 1) i (s + 1) =
              unW H mu m (m - 1 - (s + 1)) i := by
            unfold unN
            rw [if_neg (by omega), if_pos rfl]
          have hNb : unN H mu m (s + 1) i s = Msh H mu i s := by
            unfold unN
            rw [if_neg (by omega), if_neg (by omega)]
          have hNc : unN H mu m s i (s + 1) =
              (unCS H mu m (m - 1 - (s + 1))).1 *
                unW H mu m (m - 1 - (s + 1)) i +
              (unCS H mu m (m - 1 - (s + 1))).2 * Msh H mu i s := by
            unfold unN unR
            rw [if_pos (by omega), if_neg (by omega),
              Nat.add_sub_cancel]
          have hNd : unN H mu m s i s =
              -(unCS H mu m (m - 1 - (s + 1))).2 *
                unW H mu m (m - 1 - (s + 1)) i +
              (unCS H mu m (m - 1 - (s + 1))).1 * Msh H mu i s := by
            unfold unN
            rw [if_neg (by omega), if_pos rfl,
              show m - 1 - s = m - 1 - (s + 1) + 1 from by omega,
              unW_succ,
              show m - 1 - (m - 1 - (s + 1)) - 1 = s from by omega]
          rw [hv1, hv2, hNa, hNb, hNc, hNd]
          ring
      rw [hswap]
      exact ih (by omega) i

/-- Single-column correctness of `mshs::UN` over the reals: for an upper
Hessenberg `H` with nonzero pivots, the output solves
`(H - mu I) x = alpha b`. -/
lemma unSolve_correct (H : ℕ → ℕ → ℝ) (mu alpha : ℝ) (b : ℕ → ℝ) (m : ℕ)
    (hH : ∀ i j, i < m → j < m → j + 1 < i → H i j = 0)
    (hpiv : ∀ k, k < m → unR H mu m k k ≠ 0) :
    ∀ i, i < m →
      ∑ j ∈ Finset.range m, Msh H mu i j * unSolve H mu alpha b m j =
        alpha * b i := by
  intro i hi
  have hm : m ≠ 0 := by omega
  unfold unSolve
  rw [if_neg hm]
  have hcongr : ∑ j ∈ Finset.range m,
      Msh H mu i j * unV H mu alpha b m (m - 1) j =
      ∑ j ∈ Finset.range m,
        unN H mu m (m - 1) i j * unV H mu alpha b m (m - 1) j := by
    refine Finset.sum_congr rfl (fun j hj => ?_)
    rw [Finset.mem_range] at hj
    rcases Nat.lt_or_ge j (m - 1) with hjlt | hjge
    · unfold unN
      rw [if_neg (by omega), if_neg (by omega)]
    · have hj1 : j = m - 1 := by omega
      subst hj1
      unfold unN
      rw [if_neg (by omega), if_pos rfl,
        show m - 1 - (m - 1) = 0 from by omega, unW_zero]
  rw [hcongr, unN_unV_invariant H mu alpha b m (m - 1) (le_refl (m - 1)) i]
  exact unR_row H mu alpha b m hH hpiv i hi

end mshs

end elem

/-- C1 (amended): for every m-by-m lower Hessenberg matrix `H`, every
shift vector, every scalar `alpha` and every right-hand-side matrix `X`
(with every pivot encountered nonzero), `mshs::LN` overwrites each column
`X_j` with the solution of `(H - shift_j I) x_j = alpha X_j`; `mshs::UN`
does the same for every upper Hessenberg `H`.  This matches the
`MultiShiftHessSolve` dispatch, which routes `uplo == LOWER` to `LN` and
`uplo == UPPER` to `UN`; substituting the output back into the shifted
system reproduces `alpha` times the original column exactly (exact real
arithmetic). -/
theorem multiShiftHessSolve_LN_UN :
    (∀ (m nCols : ℕ) (alpha : ℝ) (H : ℕ → ℕ → ℝ) (shifts : ℕ → ℝ)
        (X : ℕ → ℕ → ℝ),
      (∀ i j, i < m → j < m → i + 1 < j → H i j = 0) →
      (∀ j, j < nCols → ∀ k, k < m →
        elem.mshs.lnL H (shifts j) m k k ≠ 0) →
      ∀ j, j < nCols → ∀ i, i < m →
        ∑ jj ∈ Finset.range m,
          elem.mshs.Msh H (shifts j) i jj *
            elem.mshs.LN alpha H shifts X m jj j = alpha * X i j) ∧
    (∀ (m nCols : ℕ) (alpha : ℝ) (H : ℕ → ℕ → ℝ) (shifts : ℕ → ℝ)
        (X : ℕ → ℕ → ℝ),
      (∀ i j, i < m → j < m → j + 1 < i → H i j = 0) →
      (∀ j, j < nCols → ∀ k, k < m →
        elem.mshs.unR H (shifts j) m k k ≠ 0) →
      ∀ j, j < nCols → ∀ i, i < m →
        ∑ jj ∈ Finset.range m,
          elem.mshs.Msh H (shifts j) i jj *
            elem.mshs.UN alpha H shifts X m jj j = alpha * X i j) := by
  constructor
  · intro m nCols alpha H shifts X hH hpiv j hj i hi
    exact elem.mshs.lnSolve_correct H (shifts j) alpha
      (fun i2 => X i2 j) m hH (hpiv j hj) i hi
  · intro m nCols alpha H shifts X hH hpiv j hj i hi
    exact elem.mshs.unSolve_correct H (shifts j) alpha
      (fun i2 => X i2 j) m hH (hpiv j hj) i hi

/-- Witness for C1: with `H = (3)`, shift `1`, `alpha = 2`, `b = (5)`,
both `LN` and `UN` produce `x = (5)` and `(H - I) x = 2 * 5`. -/
theorem multiShiftHessSolve_LN_UN_witness :
    (∑ jj ∈ Finset.range 1,
      elem.mshs.Msh wH 1 0 jj *
        elem.mshs.LN 2 wH (fun _ => 1) (fun _ _ => 5) 1 jj 0 = 2 * 5) ∧
    (∑ jj ∈ Finset.range 1,
      elem.mshs.Msh wH 1 0 jj *
        elem.mshs.UN 2 wH (fun _ => 1) (fun _ _ => 5) 1 jj 0 = 2 * 5) := by
  have hlnL : elem.mshs.lnL wH 1 1 0 0 = 2 := by
    unfold elem.mshs.lnL
    rw [if_pos (by norm_num), elem.mshs.lnW_zero]
    unfold elem.mshs.Msh wH
    norm_num
  have hunR : elem.mshs.unR wH 1 1 0 0 = 2 := by
    unfold elem.mshs.unR
    rw [if_pos rfl, elem.mshs.unW_zero]
    unfold elem.mshs.Msh wH
    norm_num
  constructor
  · refine multiShiftHessSolve_LN_UN.1 1 1 2 wH (fun _ => 1)
      (fun _ _ => 5) (fun i j _ _ _ => by omega) ?_ 0 (by norm_num) 0
      (by norm_num)
    intro j _ k hk
    have hk0 : k = 0 := by omega
    subst hk0
    rw [hlnL]
    norm_num
  · refine multiShiftHessSolve_LN_UN.2 1 1 2 wH (fun _ => 1)
      (fun _ _ => 5) (fun i j _ _ _ => by omega) ?_ 0 (by norm_num) 0
      (by norm_num)
    intro j _ k hk
    have hk0 : k = 0 := by omega
    subst hk0
    rw [hunR]
    norm_num

namespace elem

namespace mshs

lemma ce_sqrt : Real.sqrt ((3:ℝ) ^ 2 + 4 ^ 2) = 5 := by
  rw [show (3:ℝ) ^ 2 + 4 ^ 2 = 5 ^ 2 by norm_num,
    Real.sqrt_sq (by norm_num : (0:ℝ) ≤ 5)]

lemma ce_givens : computeGivens 3 4 = (3 / 5, 4 / 5) := by
  unfold computeGivens
  rw [if_neg (by norm_num), ce_sqrt]

lemma ce_w0_0 : lnW ceH 0 0 0 = 3 := by
  rw [lnW_zero]
  unfold Msh ceH
  norm_num

lemma ce_w0_1 : lnW ceH 0 0 1 = 0 := by
  rw [lnW_zero]
  unfold Msh ceH
  norm_num

lemma ce_w0_2 : lnW ceH 0 0 2 = 0 := by
  rw [lnW_zero]
  unfold Msh ceH
  norm_num

lemma ce_cs0 : lnCS ceH 0 0 = (3 / 5, 4 / 5) := by
  unfold lnCS
  rw [ce_w0_0, show ceH 0 1 = 4 by unfold ceH; norm_num, ce_givens]

lemma ce_msh11 : Msh ceH 0 1 1 = 5 := by
  unfold Msh ceH
  norm_num

lemma ce_msh21 : Msh ceH 0 2 1 = 1 := by
  unfold Msh ceH
  norm_num

lemma ce_msh22 : Msh ceH 0 2 2 = 1 := by
  unfold Msh ceH
  norm_num

lemma ce_w1_1 : lnW ceH 0 1 1 = 3 := by
  show lnW ceH 0 (0 + 1) 1 = 3
  rw [lnW_succ, ce_cs0, ce_w0_1, ce_msh11]
  norm_num

lemma ce_w1_2 : lnW ceH 0 1 2 = 3 / 5 := by
  show lnW ceH 0 (0 + 1) 2 = 3 / 5
  rw [lnW_succ, ce_cs0, ce_w0_2, ce_msh21]
  norm_num

lemma ce_cs1 : lnCS ceH 0 1 = (3 / 5, 4 / 5) := by
  unfold lnCS
  rw [ce_w1_1, show ceH 1 2 = 4 by unfold ceH; norm_num, ce_givens]

lemma ce_w2_2 : lnW ceH 0 2 2 = 3 / 25 := by
  show lnW ceH 0 (1 + 1) 2 = 3 / 25
  rw [lnW_succ, ce_cs1, ce_w1_2, ce_msh22]
  norm_num

lemma ce_L00 : lnL ceH 0 3 0 0 = 5 := by
  unfold lnL
  rw [if_neg (by norm_num), ce_cs0, ce_w0_0,
    show Msh ceH 0 0 1 = 4 by unfold Msh ceH; norm_num]
  norm_num

lemma ce_L11 : lnL ceH 0 3 1 1 = 5 := by
  unfold lnL
  rw [if_neg (by norm_num), ce_cs1, ce_w1_1,
    show Msh ceH 0 1 2 = 4 by unfold Msh ceH; norm_num]
  norm_num

lemma ce_L22 : lnL ceH 0 3 2 2 = 3 / 25 := by
  unfold lnL
  rw [if_pos (by norm_num), ce_w2_2]

lemma ce_xf1_1 : lnXf ceH 0 1 ceb 1 1 = 1 := by
  show lnXf ceH 0 1 ceb (0 + 1) 1 = 1
  rw [lnXf_succ, if_neg (by omega), if_neg (by omega), ce_cs0, ce_w0_0,
    ce_w0_1, ce_msh11]
  unfold lnXf ceb ceH
  norm_num

lemma ce_xf1_2 : lnXf ceH 0 1 ceb 1 2 = 0 := by
  show lnXf ceH 0 1 ceb (0 + 1) 2 = 0
  rw [lnXf_succ, if_neg (by omega), if_neg (by omega), ce_cs0, ce_w0_0,
    ce_w0_2, ce_msh21]
  unfold lnXf ceb ceH
  norm_num

lemma ce_xf2_2 : lnXf ceH 0 1 ceb 2 2 = -29 / 125 := by
  show lnXf ceH 0 1 ceb (1 + 1) 2 = -29 / 125
  rw [lnXf_succ, if_neg (by omega), if_neg (by omega), ce_cs1, ce_w1_1,
    ce_w1_2, ce_msh22, ce_xf1_1, ce_xf1_2,
    show ceH 1 2 = 4 by unfold ceH; norm_num]
  norm_num

lemma ce_y0 : lnY ceH 0 1 ceb 3 0 = 0 := by
  unfold lnY
  rw [ce_L00]
  unfold lnXf ceb
  norm_num

lemma ce_y1 : lnY ceH 0 1 ceb 3 1 = 1 / 5 := by
  unfold lnY
  rw [ce_L11, ce_xf1_1]

lemma ce_y2 : lnY ceH 0 1 ceb 3 2 = -29 / 15 := by
  unfold lnY
  rw [ce_L22, ce_xf2_2]
  norm_num

lemma ce_v1_0 : lnV ceH 0 1 ceb 3 1 0 = 0 := by
  show lnV ceH 0 1 ceb 3 (0 + 1) 0 = 0
  rw [lnV_succ, if_neg (by norm_num), if_neg (by norm_num), lnV_zero]
  exact ce_y0

lemma ce_v1_1 : lnV ceH 0 1 ceb 3 1 1 = 5 / 3 := by
  show lnV ceH 0 1 ceb 3 (0 + 1) 1 = 5 / 3
  rw [lnV_succ, if_pos (by norm_num)]
  norm_num
  rw [ce_cs1, lnV_zero, lnV_zero, ce_y1, ce_y2]
  norm_num

lemma ce_v1_2 : lnV ceH 0 1 ceb 3 1 2 = -1 := by
  show lnV ceH 0 1 ceb 3 (0 + 1) 2 = -1
  rw [lnV_succ, if_neg (by norm_num), if_pos (by norm_num)]
  norm_num
  rw [ce_cs1, lnV_zero, lnV_zero, ce_y1, ce_y2]
  norm_num

lemma ce_v2_0 : lnV ceH 0 1 ceb 3 2 0 = -4 / 3 := by
  show lnV ceH 0 1 ceb 3 (1 + 1) 0 = -4 / 3
  rw [lnV_succ, if_pos (by norm_num)]
  norm_num
  rw [ce_cs0, ce_v1_0, ce_v1_1]
  norm_num

lemma ce_v2_1 : lnV ceH 0 1 ceb 3 2 1 = 1 := by
  show lnV ceH 0 1 ceb 3 (1 + 1) 1 = 1
  rw [lnV_succ, if_neg (by norm_num), if_pos (by norm_num)]
  norm_num
  rw [ce_cs0, ce_v1_0, ce_v1_1]
  norm_num

lemma ce_v2_2 : lnV ceH 0 1 ceb 3 2 2 = -1 := by
  show lnV ceH 0 1 ceb 3 (1 + 1) 2 = -1
  rw [lnV_succ, if_neg (by norm_num), if_neg (by norm_num)]
  exact ce_v1_2

end mshs

end elem

/-- C1 counterexample: `ceH` is a 3x3 upper Hessenberg matrix and every
pivot of the `mshs::LN` sweep (shift `0`, `alpha = 1`, right-hand side
`(0,1,0)`) is nonzero, yet substituting the `LN` output back into
`H x = 1 * b` gives `-1` instead of `0` in row `0`: `LN` does not solve
shifted systems of upper Hessenberg matrices (it is the `uplo == LOWER`
branch of `MultiShiftHessSolve`). -/
theorem mshs_ln_upper_hessenberg_counterexample :
    (∀ i j, i < 3 → j < 3 → j + 1 < i → ceH i j = 0) ∧
    (∀ k, k < 3 → elem.mshs.lnL ceH 0 3 k k ≠ 0) ∧
    ¬ (∑ jj ∈ Finset.range 3,
        elem.mshs.Msh ceH 0 0 jj *
          elem.mshs.LN 1 ceH (fun _ => 0) (fun i _ => ceb i) 3 jj 0 =
        1 * ceb 0) := by
  refine ⟨?_, ?_, ?_⟩
  · intro i j hi hj hlt
    have hij : i = 2 ∧ j = 0 := by omega
    obtain ⟨rfl, rfl⟩ := hij
    unfold ceH
    norm_num
  · intro k hk
    interval_cases k
    · rw [elem.mshs.ce_L00]; norm_num
    · rw [elem.mshs.ce_L11]; norm_num
    · rw [elem.mshs.ce_L22]; norm_num
  · intro hcon
    have hLN : ∀ jj, elem.mshs.LN 1 ceH (fun _ => 0) (fun i _ => ceb i)
        3 jj 0 = elem.mshs.lnV ceH 0 1 ceb 3 2 jj := by
      intro jj
      show elem.mshs.lnSolve ceH 0 1 ceb 3 jj = _
      unfold elem.mshs.lnSolve
      rw [if_neg (by norm_num)]
    rw [Finset.sum_range_succ, Finset.sum_range_succ,
      Finset.sum_range_succ, Finset.sum_range_zero, hLN, hLN, hLN,
      elem.mshs.ce_v2_0, elem.mshs.ce_v2_1, elem.mshs.ce_v2_2] at hcon
    rw [show elem.mshs.Msh ceH 0 0 0 = 3 by
        unfold elem.mshs.Msh ceH; norm_num,
      show elem.mshs.Msh ceH 0 0 1 = 4 by
        unfold elem.mshs.Msh ceH; norm_num,
      show elem.mshs.Msh ceH 0 0 2 = 1 by
        unfold elem.mshs.Msh ceH; norm_num] at hcon
    unfold ceb at hcon
    norm_num at hcon
